import Mathlib

/-!
Verification of the BFSkinner-scrape repository.

Shallow embedding of the two scraper variants:

* `bfskinner_scraper/scraper.py` — the bounded breadth-first crawler
  (`BFSkinnerScraper`): URL normalization, resource classification,
  internal-link discovery and the bounded crawl loop.
* `bfskinner_scrape/scraper.py` — the paginated article scraper
  (`Scraper`): text flattening, next-link extraction and the pagination
  loop with its cycle guard.

Modelling conventions:

* Python strings are Lean `String` (logically a `List Char`); the string
  helpers used by the source (`str.lower`, `str.strip`, `str.split`,
  `str.startswith`, `str.endswith`, substring membership) are modelled on
  `List Char`, restricted to their ASCII behaviour, which is all the
  source relies on.
* `urllib.parse.urlparse` is modelled faithfully (scheme validation and
  lowercasing, netloc, fragment, query and params splitting) by
  `urlparse`, minus the IPv6-bracket `ValueError` and the control
  character stripping of very recent CPython versions, neither of which
  the source depends on.
* External collaborators are parameters: `urllib.parse.urljoin` is an
  opaque function argument `uj`; an HTTP fetch plus HTML parse is a
  function from URL to a `FetchRes` (crawler) or to
  `Option (List ArticleRecord × Option String)` (paginator, where the
  fetched page is abstracted by what `parse_listing` returns for it, and
  `none` models the fatal `ScraperError` raised by `_fetch`).
* Parsed markup trees (both `xml.etree.ElementTree` elements and
  BeautifulSoup tags) are the mutual inductive `Elem`, which carries
  tag, attributes, leading text, trailing text (`tail`) and children.
-/

/-! ## Python string primitives on `List Char` -/

/-- Python whitespace for `str.strip` / `str.split` (ASCII subset). -/
def pySpace (c : Char) : Bool :=
  c == ' ' || c == '\t' || c == '\n' || c == '\r' || c == '\x0b' || c == '\x0c'

/-- `str.strip()` : drop leading and trailing whitespace. -/
def stripL (l : List Char) : List Char :=
  ((l.dropWhile pySpace).reverse.dropWhile pySpace).reverse

/-- `str.strip()` on `String`. -/
def stripS (s : String) : String := ⟨stripL s.data⟩

/-- `str.lower()` restricted to ASCII (all the source compares is ASCII).
`Char.toLower` is exactly the ASCII case map. -/
def lowerL (l : List Char) : List Char := l.map Char.toLower

/-- `a.startswith(b)` : `startsWithL pat l` tests that `pat` is an initial
segment of `l`. -/
def startsWithL : List Char → List Char → Bool
  | [], _ => true
  | _ :: _, [] => false
  | p :: ps, c :: cs => p == c && startsWithL ps cs

/-- `a.endswith(b)` : `endsWithL pat l` tests that `pat` is a final
segment of `l`. -/
def endsWithL (pat l : List Char) : Bool := startsWithL pat.reverse l.reverse

/-- Python `b in a` on strings: `isSubstr pat l` tests that `pat` occurs
contiguously inside `l`. -/
def isSubstr (pat : List Char) : List Char → Bool
  | [] => startsWithL pat []
  | c :: cs => startsWithL pat (c :: cs) || isSubstr pat cs

/-- `str.split()` helper: accumulates the current token (reversed). -/
def splitWsAux : List Char → List Char → List (List Char)
  | [], acc => if acc = [] then [] else [acc.reverse]
  | c :: rest, acc =>
    if pySpace c then
      if acc = [] then splitWsAux rest [] else acc.reverse :: splitWsAux rest []
    else splitWsAux rest (c :: acc)

/-- `str.split()` with no argument: split on whitespace runs, no empty
tokens. -/
def splitWs (l : List Char) : List (List Char) := splitWsAux l []

/-- `s.find(sep)`-and-slice: first occurrence of `sep` splits `l` into the
part before and the part after; `none` when absent. -/
def splitOnce (sep : Char) : List Char → Option (List Char × List Char)
  | [] => none
  | c :: cs =>
    if c = sep then some ([], cs)
    else
      match splitOnce sep cs with
      | some (a, b) => some (c :: a, b)
      | none => none

/-- Split at the last `'/'`: returns `(front, seg)` with the original list
equal to `front ++ seg`, `front` ending in `'/'` (or empty when there is
no slash) and `seg` slash-free. -/
def splitLastSlash : List Char → List Char × List Char
  | [] => ([], [])
  | c :: cs =>
    if cs.contains '/' then
      ((c :: (splitLastSlash cs).1), (splitLastSlash cs).2)
    else if c = '/' then (['/'], cs)
    else ([], c :: cs)

/-! ## `urllib.parse.urlparse` model -/

/-- The named tuple returned by `urlparse`. -/
structure UrlParts where
  scheme : List Char
  netloc : List Char
  path : List Char
  params : List Char
  query : List Char
  fragment : List Char
deriving Repr, DecidableEq

/-- Characters admissible in a URL scheme after the first
(`scheme_chars` in CPython: ASCII letters, digits, `+`, `-`, `.`). -/
def schemeChar (c : Char) : Bool :=
  (65 ≤ c.toNat && c.toNat ≤ 90) || (97 ≤ c.toNat && c.toNat ≤ 122) ||
  (48 ≤ c.toNat && c.toNat ≤ 57) || c == '+' || c == '-' || c == '.'

/-- ASCII letter test (`url[0].isascii() and url[0].isalpha()`). -/
def asciiAlpha (c : Char) : Bool :=
  (65 ≤ c.toNat && c.toNat ≤ 90) || (97 ≤ c.toNat && c.toNat ≤ 122)

/-- Scheme extraction step of CPython `urlsplit`: if the text before the
first `':'` is a non-empty valid scheme it is removed and lowercased,
otherwise the URL is left whole with an empty scheme. -/
def extractScheme (url : List Char) : List Char × List Char :=
  match splitOnce ':' url with
  | some (before, after) =>
    if before ≠ [] ∧ asciiAlpha (before.headD ' ') ∧ before.all schemeChar
    then (lowerL before, after)
    else ([], url)
  | none => ([], url)

/-- Delimiters terminating the netloc (`'/'`, `'?'`, `'#'`). -/
def netlocDelim (c : Char) : Bool := c == '/' || c == '?' || c == '#'

/-- Netloc extraction step of `urlsplit` (`url[:2] == '//'` in CPython):
present only after a leading `"//"`, running to the first `/`, `?` or
`#`. -/
def extractNetloc (rest : List Char) : List Char × List Char :=
  if startsWithL "//".data rest then
    ((rest.drop 2).takeWhile (fun c => !netlocDelim c),
     (rest.drop 2).dropWhile (fun c => !netlocDelim c))
  else ([], rest)

/-- `str.split(sep, 1)` with a default: the pair `(before, after)` when
`sep` occurs, `(l, [])` otherwise. -/
def splitOnceD (sep : Char) (l : List Char) : List Char × List Char :=
  match splitOnce sep l with
  | some (a, b) => (a, b)
  | none => (l, [])

/-- CPython `_splitparams`: split the last path segment at its first
`';'`. -/
def splitparams (p : List Char) : List Char × List Char :=
  if p.contains '/' then
    match splitOnce ';' (splitLastSlash p).2 with
    | some (a, b) => ((splitLastSlash p).1 ++ a, b)
    | none => (p, [])
  else
    match splitOnce ';' p with
    | some (a, b) => (a, b)
    | none => (p, [])

/-- CPython `urlsplit` (fragment split before query split, both after
netloc extraction). -/
def urlsplit (url : List Char) : UrlParts :=
  let s := extractScheme url
  let n := extractNetloc s.2
  let f := splitOnceD '#' n.2
  let q := splitOnceD '?' f.1
  { scheme := s.1, netloc := n.1, path := q.1, params := [],
    query := q.2, fragment := f.2 }

/-- A well-formed extracted scheme: non-empty, leading ASCII letter, all
characters scheme characters, and fixed under lowercasing. -/
def SchemeOK (s : List Char) : Prop :=
  s ≠ [] ∧ asciiAlpha (s.headD ' ') = true ∧ s.all schemeChar = true ∧
  lowerL s = s

/-- CPython `uses_params`: schemes for which `urlparse` splits params. -/
def uses_params : List (List Char) :=
  ["".data, "ftp".data, "hdl".data, "prospero".data, "http".data,
   "imap".data, "https".data, "shttp".data, "rtsp".data, "rtsps".data,
   "rtspu".data, "sip".data, "sips".data, "mms".data, "sftp".data,
   "tel".data]

/-- CPython `urlparse` = `urlsplit` plus params splitting on the path
(only for schemes in `uses_params`). -/
def urlparse (url : List Char) : UrlParts :=
  let u := urlsplit url
  if u.scheme ∈ uses_params ∧ u.path.contains ';' then
    { u with path := (splitparams u.path).1, params := (splitparams u.path).2 }
  else u

namespace BFSkinnerScraper

/-- `BFSkinnerScraper._normalize_url` (scraper.py lines 209-217): default
empty scheme to `https` and empty path to `/`, keep the query, drop
fragment and params; return the input unchanged when there is no
netloc. -/
def normalize_urlL (url : List Char) : List Char :=
  let parsed := urlparse url
  let scheme := if parsed.scheme = [] then "https".data else parsed.scheme
  let path := if parsed.path = [] then ['/'] else parsed.path
  let query := if parsed.query = [] then [] else '?' :: parsed.query
  if parsed.netloc = [] then url
  else scheme ++ (':' :: '/' :: '/' :: []) ++ parsed.netloc ++ path ++ query

/-- `_normalize_url` on `String`. -/
def normalize_url (url : String) : String := ⟨normalize_urlL url.data⟩

/-- `BFSkinnerScraper.RESOURCE_EXTENSIONS` (a Python set; listed here in
source order — no two of them can match the same path, so iteration
order is immaterial and the fold below is deterministic). -/
def RESOURCE_EXTENSIONS : List (List Char) :=
  [".pdf".data, ".doc".data, ".docx".data, ".ppt".data, ".pptx".data,
   ".xls".data, ".xlsx".data, ".zip".data, ".mp3".data, ".mp4".data,
   ".wav".data, ".m4a".data]

/-- `BFSkinnerScraper.KEYWORD_HINTS`. -/
def KEYWORD_HINTS : List (List Char) :=
  ["download".data, "free".data, "resource".data, "handout".data,
   "worksheet".data, "guide".data, "ebook".data, "podcast".data,
   "video".data, "audio".data, "pdf".data]

/-- `BFSkinnerScraper._is_internal_url` (scraper.py lines 204-207):
netloc matches the base netloc, or no netloc with a non-empty path. -/
def is_internal_url (baseUrl url : String) : Bool :=
  let parsed := urlparse url.data
  let base := urlparse baseUrl.data
  parsed.netloc == base.netloc || (parsed.netloc == [] && parsed.path ≠ [])

/-- `ext.lstrip "."` : drop leading dots. -/
def lstripDot (l : List Char) : List Char := l.dropWhile (· == '.')

/-- `BFSkinnerScraper._classify_resource` (scraper.py lines 178-192):
reject non-`http*` schemes; then match the lowercased path against the
fixed extensions; then the keyword/internal heuristic. -/
def classify_resource (baseUrl resourceUrl anchorText : String) : Option String :=
  let parsed := urlparse resourceUrl.data
  if !(startsWithL "http".data parsed.scheme) then none
  else
    let lowerPath := lowerL parsed.path
    match RESOURCE_EXTENSIONS.find? (fun ext => endsWithL ext lowerPath) with
    | some ext => some ⟨lstripDot ext⟩
    | none =>
      let lowerText := lowerL anchorText.data
      if KEYWORD_HINTS.any (fun keyword => isSubstr keyword lowerText) then
        if is_internal_url baseUrl resourceUrl then some "page" else none
      else none

/-- `base_url.rstrip("/") + "/"` from `BFSkinnerScraper.__init__`. -/
def initBaseUrl (baseUrl : String) : String :=
  ⟨(baseUrl.data.reverse.dropWhile (· == '/')).reverse ++ ['/']⟩

end BFSkinnerScraper

/-! ## Parsed markup trees

One tree type serves both the `xml.etree.ElementTree` elements of the
paginator variant and the BeautifulSoup tags of the crawler variant: a
node has a tag, attributes, the text before its first child (`text`),
the text after its closing tag inside its parent (`tail`) and child
elements. -/

mutual
inductive Elem where
  | mk (tag : String) (attrs : List (String × String)) (text : Option String)
       (tail : Option String) (children : ElemList)
inductive ElemList where
  | nil
  | cons (head : Elem) (tail : ElemList)
end

def Elem.tag : Elem → String
  | .mk t _ _ _ _ => t

def Elem.attrs : Elem → List (String × String)
  | .mk _ a _ _ _ => a

def Elem.text : Elem → Option String
  | .mk _ _ tx _ _ => tx

def Elem.tailText : Elem → Option String
  | .mk _ _ _ tl _ => tl

def Elem.children : Elem → ElemList
  | .mk _ _ _ _ cs => cs

/-- `element.get(name)` : first attribute with the given name. -/
def Elem.get (e : Elem) (name : String) : Option String :=
  (e.attrs.find? (fun kv => kv.1 == name)).map (·.2)

/-- Convenience constructor from a `List Elem`. -/
def ElemList.ofList : List Elem → ElemList
  | [] => .nil
  | e :: es => .cons e (ElemList.ofList es)

mutual
/-- Subtree of `e` in document (pre-)order, each node paired with its
ancestor chain (nearest first). -/
def Elem.subtreeCtx (anc : List Elem) : Elem → List (Elem × List Elem)
  | .mk t a tx tl cs =>
    (Elem.mk t a tx tl cs, anc) :: ElemList.subtreeCtx (Elem.mk t a tx tl cs :: anc) cs
def ElemList.subtreeCtx (anc : List Elem) : ElemList → List (Elem × List Elem)
  | .nil => []
  | .cons e es => Elem.subtreeCtx anc e ++ ElemList.subtreeCtx anc es
end

/-- All descendants of `root` in document order, paired with ancestors
(the root itself is not listed: both `findall(".//tag")` and
`soup.find_all` search below the object they are called on). -/
def Elem.descendantsCtx (root : Elem) : List (Elem × List Elem) :=
  ElemList.subtreeCtx [root] root.children

/-- `root.findall(".//tag")` : descendants with the given tag, in
document order. -/
def Elem.findall (root : Elem) (tag : String) : List Elem :=
  (root.descendantsCtx.map (·.1)).filter (fun e => e.tag == tag)

namespace Scraper

mutual
/-- `Scraper._text_content` (bfskinner_scrape/scraper.py lines 189-198)
on a non-`None` element: own text, then for each child its flattened
text followed by its tail, joined and stripped. The recursive call
strips at every level, exactly as the source does. -/
def text_contentL : Elem → List Char
  | .mk _ _ text _ children =>
    stripL ((text.getD "").data ++ text_contentParts children)
/-- The `for child in element` part of `_text_content`: appending each
child's flattened text and (when truthy) its tail. -/
def text_contentParts : ElemList → List Char
  | .nil => []
  | .cons c rest =>
    text_contentL c ++ (c.tailText.getD "").data ++ text_contentParts rest
end

/-- `_text_content` with the `element is None` guard, on `String`. -/
def text_content : Option Elem → String
  | none => ""
  | some e => ⟨text_contentL e⟩

/-- `Scraper._contains_flag` (lines 183-186): whitespace-split the
attribute value, strip and lowercase each token, and test membership of
the lowercased flag. -/
def contains_flag (attributeValue flag : String) : Bool :=
  let tokens := ((splitWs attributeValue.data).filter
      (fun t => stripL t ≠ [])).map (fun t => lowerL (stripL t))
  tokens.contains (lowerL flag.data)

/-- The anchor loop of `Scraper._find_next_link` (lines 172-180). -/
def find_next_linkGo (uj : String → String → String) (baseUrl : String) :
    List Elem → Option String
  | [] => none
  | link :: rest =>
    let rel := (link.get "rel").getD ""
    let classes := (link.get "class").getD ""
    if contains_flag rel "next" || contains_flag classes "next" then
      let href := stripS ((link.get "href").getD "")
      if href ≠ "" then some (uj baseUrl href)
      else find_next_linkGo uj baseUrl rest
    else find_next_linkGo uj baseUrl rest

/-- `Scraper._find_next_link`: first anchor whose `rel` or `class`
token list contains `next` and whose stripped href is non-empty; its
href resolved against the configured base. `uj` models
`urllib.parse.urljoin`. -/
def find_next_link (uj : String → String → String) (baseUrl : String)
    (root : Elem) : Option String :=
  find_next_linkGo uj baseUrl (root.findall "a")

end Scraper

/-! ## Crawler record extraction (BeautifulSoup side) -/

/-- `ResourceRecord` (bfskinner_scraper/scraper.py lines 17-30). -/
structure ResourceRecord where
  page_url : String
  resource_url : String
  resource_title : String
  resource_type : String
  page_title : Option String := none
  description : Option String := none
deriving Repr, DecidableEq

namespace BFSkinnerScraper

mutual
/-- The text fragments of a BeautifulSoup subtree in document order (own
text, then per child its fragments followed by its tail). -/
def Elem.fragments : Elem → List (List Char)
  | .mk _ _ text _ children => (text.getD "").data :: ElemList.fragments children
def ElemList.fragments : ElemList → List (List Char)
  | .nil => []
  | .cons c rest =>
    Elem.fragments c ++ ((c.tailText.getD "").data :: ElemList.fragments rest)
end

/-- Join with a single-character separator. -/
def joinSep (sep : Char) : List (List Char) → List Char
  | [] => []
  | [t] => t
  | t :: rest => t ++ sep :: joinSep sep rest

/-- BeautifulSoup `tag.get_text(" ", strip=True)`: each text fragment
stripped, whitespace-only fragments dropped, the rest joined with a
single space. -/
def get_text_strip (e : Elem) : String :=
  ⟨joinSep ' ' (((Elem.fragments e).map stripL).filter (· ≠ []))⟩

/-- `BFSkinnerScraper._extract_page_title` (lines 219-223): the first
`title` descendant's string, stripped; `None` when there is no title
tag, it has child elements, or its string is `None`/empty. -/
def extract_page_title (root : Elem) : Option String :=
  match (root.findall "title").head? with
  | none => none
  | some t =>
    match t.children, t.text with
    | .nil, some s => if s = "" then none else some (stripS s)
    | _, _ => none

/-- `BFSkinnerScraper._derive_description` (lines 194-202): text of the
nearest `p`/`li`/`div` ancestor, else the anchor's own text, else
`None`. -/
def derive_description (anchor : Elem) (ancestors : List Elem) : Option String :=
  let fallback :=
    if get_text_strip anchor ≠ "" then some (get_text_strip anchor) else none
  match ancestors.find? (fun p => p.tag == "p" || p.tag == "li" || p.tag == "div") with
  | some parent =>
    if get_text_strip parent ≠ "" then some (get_text_strip parent) else fallback
  | none => fallback

/-- `soup.find_all("a", href=True)` with ancestor context: descendants
tagged `a` carrying an `href` attribute, in document order. -/
def anchorsWithHref (root : Elem) : List (Elem × List Elem) :=
  root.descendantsCtx.filter (fun ac => ac.1.tag == "a" && (ac.1.get "href").isSome)

/-- `BFSkinnerScraper._extract_resources` (lines 149-175): classify each
anchor, build a `ResourceRecord`, and drop records structurally equal to
one already collected for this page. -/
def extract_resources (uj : String → String → String) (baseUrl pageUrl : String)
    (pageTitle : Option String) (root : Elem) : List ResourceRecord :=
  (anchorsWithHref root).foldl (fun resources ac =>
    let href := (ac.1.get "href").getD ""
    let text := get_text_strip ac.1
    if href = "" then resources
    else
      let resourceUrl := uj pageUrl href
      match classify_resource baseUrl resourceUrl text with
      | none => resources
      | some resourceType =>
        let record : ResourceRecord :=
          { page_url := normalize_url pageUrl
            resource_url := normalize_url resourceUrl
            resource_title := if text ≠ "" then text else pageTitle.getD ""
            resource_type := resourceType
            page_title := pageTitle
            description := derive_description ac.1 ac.2 }
        if record ∈ resources then resources else resources ++ [record]) []

/-- `BFSkinnerScraper._extract_internal_links` (lines 138-147): resolve
every non-empty href, keep internal ones, normalized, when non-empty. -/
def extract_internal_links (uj : String → String → String)
    (baseUrl pageUrl : String) (root : Elem) : List String :=
  (anchorsWithHref root).filterMap (fun ac =>
    let href := (ac.1.get "href").getD ""
    if href = "" then none
    else
      let absolute := uj pageUrl href
      if is_internal_url baseUrl absolute then
        let cleaned := normalize_url absolute
        if cleaned ≠ "" then some cleaned else none
      else none)

end BFSkinnerScraper

/-! ## Crawler traversal loop

`BFSkinnerScraper.crawl` (scraper.py lines 94-125).  The fetch-and-parse
collaborator is a function from URL to `FetchRes`: `err` models a raised
`requests.RequestException`, `skip` models `_fetch` returning `None`
(non-success status or non-HTML content type), and `page doc` models a
successful fetch whose body BeautifulSoup parses to `doc` (the parser
itself never fails).

The `while queue and len(visited) < max_pages` loop is compiled into two
structural recursions so that concrete runs are kernel-computable: the
inner recursion walks the frontier while the visited set is unchanged
(already-visited entries and raising fetches only shrink the queue), and
every fetch that does not raise marks its URL visited and re-enters the
outer recursion, whose budget argument equals `max_pages` minus the
visited count (so the budget hits `0` exactly when the source's loop
guard `len(self._visited) < self.max_pages` turns false).  `trace`
instruments the run with every call of `_fetch`, flagged `true` when the
call did not raise. -/

inductive FetchRes where
  | err
  | skip
  | page (doc : Elem)

structure CrawlState where
  queue : List String
  visited : List String
  resources : List ResourceRecord
  trace : List (String × Bool)

namespace BFSkinnerScraper

/-- One pass over the frontier: `next` is the continuation run after a
fetch that grows the visited set. -/
def crawlInner (uj : String → String → String) (fetch : String → FetchRes)
    (baseUrl : String) (maxPages : Nat) (next : CrawlState → CrawlState) :
    List String → CrawlState → CrawlState
  | [], s => s
  | url :: rest, s =>
    if s.visited.length < maxPages then
      if url ∈ s.visited then
        crawlInner uj fetch baseUrl maxPages next rest { s with queue := rest }
      else
        match fetch url with
        | .err =>
          crawlInner uj fetch baseUrl maxPages next rest
            { s with queue := rest, trace := s.trace ++ [(url, false)] }
        | .skip =>
          next { s with queue := rest, visited := s.visited ++ [url],
                        trace := s.trace ++ [(url, true)] }
        | .page doc =>
          let visited1 := s.visited ++ [url]
          let pageTitle := extract_page_title doc
          let newResources := extract_resources uj baseUrl url pageTitle doc
          let links := extract_internal_links uj baseUrl url doc
          let queue1 := links.foldl
            (fun q link => if link ∉ visited1 ∧ link ∉ q then q ++ [link] else q)
            rest
          next { queue := queue1, visited := visited1,
                 resources := s.resources ++ newResources,
                 trace := s.trace ++ [(url, true)] }
    else s

/-- The crawl loop: each outer step spends one unit of page budget. -/
def crawlGo (uj : String → String → String) (fetch : String → FetchRes)
    (baseUrl : String) (maxPages : Nat) : Nat → CrawlState → CrawlState
  | 0, s => s
  | b + 1, s =>
    crawlInner uj fetch baseUrl maxPages
      (crawlGo uj fetch baseUrl maxPages b) s.queue s

/-- The crawl `while` loop written directly as a well-founded recursion
(lexicographic measure: pages still allowed, then frontier length),
mirroring scraper.py lines 99-124 statement by statement. It is proved
equal to the budgeted compilation `crawlGo` below, which is the form
the theorems use because it is structurally recursive and therefore
kernel-computable on concrete inputs. -/
def crawlLoopW (uj : String → String → String) (fetch : String → FetchRes)
    (baseUrl : String) (maxPages : Nat) (s : CrawlState) : CrawlState :=
  match hq : s.queue with
  | [] => s
  | url :: rest =>
    if hv : s.visited.length < maxPages then
      if url ∈ s.visited then
        crawlLoopW uj fetch baseUrl maxPages { s with queue := rest }
      else
        match fetch url with
        | .err =>
          crawlLoopW uj fetch baseUrl maxPages
            { s with queue := rest, trace := s.trace ++ [(url, false)] }
        | .skip =>
          crawlLoopW uj fetch baseUrl maxPages
            { s with queue := rest, visited := s.visited ++ [url],
                     trace := s.trace ++ [(url, true)] }
        | .page doc =>
          let visited1 := s.visited ++ [url]
          let pageTitle := extract_page_title doc
          let newResources := extract_resources uj baseUrl url pageTitle doc
          let links := extract_internal_links uj baseUrl url doc
          let queue1 := links.foldl
            (fun q link => if link ∉ visited1 ∧ link ∉ q then q ++ [link] else q)
            rest
          crawlLoopW uj fetch baseUrl maxPages
            { queue := queue1, visited := visited1,
              resources := s.resources ++ newResources,
              trace := s.trace ++ [(url, true)] }
    else s
termination_by (maxPages - s.visited.length, s.queue.length)
decreasing_by
  all_goals simp_wf
  · apply Prod.Lex.right
    rw [hq]
    simp
  · apply Prod.Lex.right
    rw [hq]
    simp
  · apply Prod.Lex.left
    omega
  · apply Prod.Lex.left
    omega

/-- `BFSkinnerScraper.crawl`: frontier seeded with the slash-terminated
base URL, fresh visited set, budget `max_pages`. -/
def crawl (uj : String → String → String) (fetch : String → FetchRes)
    (baseUrlRaw : String) (maxPages : Nat) : CrawlState :=
  let baseUrl := initBaseUrl baseUrlRaw
  crawlGo uj fetch baseUrl maxPages maxPages ⟨[baseUrl], [], [], []⟩

end BFSkinnerScraper

/-! ## Paginator traversal loop

`Scraper.scrape` (bfskinner_scrape/scraper.py lines 51-82).  A page
fetch-and-parse is abstracted by `world : String → Option (List
ArticleRecord × Option String)`: `none` models the fatal `ScraperError`
raised by `_fetch`/`_parse_html`, `some (articles, next)` models what
`parse_listing` returns for the fetched page.  The `while` loop runs on
fuel; `ScrapeOutcome.fuelOut` marks fuel exhaustion (never reached for
sufficient fuel, see the termination theorem).  `trace` records every
fetched URL in order. -/

structure ArticleRecord where
  title : String
  url : String
  summary : Option String := none
  published : Option String := none
deriving Repr, DecidableEq

inductive ScrapeOutcome where
  | ok (articles : List ArticleRecord)
  | fetchError (url : String)
  | fuelOut
deriving Repr, DecidableEq

structure ScrapeRun where
  outcome : ScrapeOutcome
  collected : List ArticleRecord
  visited : List String
  trace : List String
deriving Repr, DecidableEq

structure ScrapeState where
  nextPage : String
  visited : List String
  seenUrls : List String
  collected : List ArticleRecord
  trace : List String
deriving Repr, DecidableEq

inductive ScrapeStep where
  | halt (run : ScrapeRun)
  | toPage (st : ScrapeState)
deriving Repr, DecidableEq

namespace Scraper

/-- The article-merging loop of `scrape` (lines 72-76): skip any article
whose URL was already seen in this run. -/
def mergeArticles (articles : List ArticleRecord)
    (seenUrls : List String) (collected : List ArticleRecord) :
    List String × List ArticleRecord :=
  articles.foldl
    (fun p a => if a.url ∈ p.1 then p else (p.1 ++ [a.url], p.2 ++ [a]))
    (seenUrls, collected)

/-- One iteration of the `while` loop of `scrape`: the loop guard
(`next_page` truthy and unvisited), the fetch (visited is extended
before fetching), the merge, and the next-pointer decision with its
cycle guard. -/
def scrapeStep (world : String → Option (List ArticleRecord × Option String))
    (st : ScrapeState) : ScrapeStep :=
  if st.nextPage = "" ∨ st.nextPage ∈ st.visited then
    .halt ⟨.ok st.collected, st.collected, st.visited, st.trace⟩
  else
    let visited1 := st.visited ++ [st.nextPage]
    let trace1 := st.trace ++ [st.nextPage]
    match world st.nextPage with
    | none => .halt ⟨.fetchError st.nextPage, st.collected, visited1, trace1⟩
    | some (articles, possibleNext) =>
      let merged := mergeArticles articles st.seenUrls st.collected
      match possibleNext with
      | none => .halt ⟨.ok merged.2, merged.2, visited1, trace1⟩
      | some nxt =>
        if nxt = "" ∨ nxt ∈ visited1 then
          .halt ⟨.ok merged.2, merged.2, visited1, trace1⟩
        else .toPage ⟨nxt, visited1, merged.1, merged.2, trace1⟩

/-- The `while` loop of `scrape`, on fuel. -/
def scrapeLoop (world : String → Option (List ArticleRecord × Option String)) :
    Nat → ScrapeState → ScrapeRun
  | 0, st => ⟨.fuelOut, st.collected, st.visited, st.trace⟩
  | fuel + 1, st =>
    match scrapeStep world st with
    | .halt r => r
    | .toPage st1 => scrapeLoop world fuel st1

/-- `Scraper.scrape`: start from `start_url or self.base_url` with empty
visited set, seen set and accumulator. -/
def scrape (world : String → Option (List ArticleRecord × Option String))
    (fuel : Nat) (baseUrl : String) (startUrl : Option String) : ScrapeRun :=
  let start :=
    match startUrl with
    | none => baseUrl
    | some s => if s = "" then baseUrl else s
  scrapeLoop world fuel ⟨start, [], [], [], []⟩

/-- The validated part of `Scraper.__init__` (lines 34-48): an empty
`base_url` raises `ValueError` before any field is assigned; otherwise
the configuration is constructed. -/
structure Config where
  base_url : String
  user_agent : String
  timeout : Nat
deriving Repr, DecidableEq

def init (baseUrl userAgent : String) (timeout : Nat) : Except String Config :=
  if baseUrl = "" then .error "base_url must be provided"
  else .ok ⟨baseUrl, userAgent, timeout⟩

end Scraper

/-! ## Spec-side comparison definitions

Definitions following the specification's wording, used to compare
against the source-side definitions above. -/

mutual
/-- The spec's document-order concatenation for text flattening, with no
stripping anywhere: own text, then each child's flattened text and
trailing text. -/
def rawFlatten : Elem → List Char
  | .mk _ _ text _ children => (text.getD "").data ++ rawFlattenParts children
def rawFlattenParts : ElemList → List Char
  | .nil => []
  | .cons c rest =>
    rawFlatten c ++ (c.tailText.getD "").data ++ rawFlattenParts rest
end

/-- Modelled from the spec: "recursively concatenate an element's own
text, each child's flattened text, and each child's trailing text,
preserving document order — then strip leading/trailing whitespace",
with the strip applied only to the final concatenated result. -/
def flattenThenStrip (e : Elem) : String := ⟨stripL (rawFlatten e)⟩

/-- A character list with no leading or trailing Python whitespace. -/
def trimFixedFrag (l : List Char) : Bool :=
  (l.dropWhile pySpace == l) && (l.reverse.dropWhile pySpace == l.reverse)

mutual
/-- Every text fragment of the tree (own text and tail at every node)
carries no leading or trailing whitespace. -/
def Elem.trimFixed : Elem → Bool
  | .mk _ _ text tail children =>
    trimFixedFrag (text.getD "").data && trimFixedFrag (tail.getD "").data &&
    ElemList.trimFixed children
def ElemList.trimFixed : ElemList → Bool
  | .nil => true
  | .cons c rest => Elem.trimFixed c && ElemList.trimFixed rest
end

/-- Modelled from the spec (claim C8): the next link is "the first
anchor (in document order) whose rel or class attribute token list
contains the case-insensitive token next", its href resolved — with no
requirement that the href be present or non-empty. -/
def specNextLink (uj : String → String → String) (baseUrl : String)
    (root : Elem) : Option String :=
  ((root.findall "a").find? (fun link =>
      Scraper.contains_flag ((link.get "rel").getD "") "next" ||
      Scraper.contains_flag ((link.get "class").getD "") "next")).map
    (fun link => uj baseUrl ((link.get "href").getD ""))

/-- The urls fetched successfully so far. -/
def successUrls (trace : List (String × Bool)) : List String :=
  (trace.filter (·.2)).map (·.1)

/-- Invariant tying the successful fetch trace to the visited set. -/
def SuccInv (s : CrawlState) : Prop :=
  (successUrls s.trace).Nodup ∧ ∀ u ∈ successUrls s.trace, u ∈ s.visited

/-! ## Concrete fixtures for counterexamples and witnesses -/

/-- A `div` whose own text ends without whitespace while its child's
text is space-padded: per-level stripping is observable on it. -/
def exPadded : Elem :=
  .mk "div" [] (some "x") none (.cons (.mk "span" [] (some " y ") none .nil) .nil)

/-- A whitespace-free tree for the flattening witness. -/
def exTrimmed : Elem :=
  .mk "div" [] (some "ab") none
    (.cons (.mk "span" [] (some "cd") (some "ef") .nil) .nil)

/-- `urljoin` stand-in that concatenates base and reference. -/
def ujAppend (b r : String) : String := b ++ r

/-- `urljoin` stand-in that returns the reference unchanged (fixtures
below use absolute hrefs only). -/
def ujId (_ r : String) : String := r

/-- Listing page whose first `next`-flagged anchor has a
whitespace-only href and whose second one has a real href. -/
def exNextPage : Elem :=
  .mk "html" [] none none (.ofList
    [ .mk "a" [("class", "next"), ("href", "  ")] (some "broken") none .nil,
      .mk "a" [("rel", "next"), ("href", "/p2")] none none .nil ])

/-- Crawl fixture: the base page links to pages `b` and `c`. -/
def pageA : Elem :=
  .mk "html" [] none none (.ofList
    [ .mk "a" [("href", "http://h/b")] none none .nil,
      .mk "a" [("href", "http://h/c")] none none .nil ])

/-- Crawl fixture: page `c` links back to page `b`. -/
def pageC : Elem :=
  .mk "html" [] none none (.ofList
    [ .mk "a" [("href", "http://h/b")] none none .nil ])

/-- Crawl fixture fetcher: the base page and `c` parse fine, every fetch
of `b` raises. -/
def fetchBErr : String → FetchRes := fun u =>
  if u = "http://h/" then .page pageA
  else if u = "http://h/c" then .page pageC
  else .err

/-- Crawl fixture fetcher that never raises. -/
def fetchSkip : String → FetchRes := fun _ => FetchRes.skip

/-- Paginator fixture world: two pages pointing at each other. -/
def worldAB : String → Option (List ArticleRecord × Option String) := fun u =>
  if u = "pg1" then some ([⟨"T", "u1", none, none⟩], some "pg2")
  else if u = "pg2" then some ([], some "pg1")
  else none

/-- A page whose only anchor resolves to a `mailto:` address with a
keyword text and a recognized extension in its path. -/
def exMailtoPage : Elem :=
  .mk "html" [] none none (.ofList
    [ .mk "a" [("href", "mailto:guide.pdf")] (some "Download the free guide") none .nil ])

/-! # Theorems -/

/-! ## Supporting lemmas -/

theorem trimFixedFrag_append {a b : List Char} (ha : trimFixedFrag a = true)
    (hb : trimFixedFrag b = true) : trimFixedFrag (a ++ b) = true := by
  simp only [trimFixedFrag, Bool.and_eq_true, beq_iff_eq] at *
  obtain ⟨ha1, ha2⟩ := ha
  obtain ⟨hb1, hb2⟩ := hb
  constructor
  · rw [List.dropWhile_append, ha1]
    cases a with
    | nil => simpa using hb1
    | cons c cs => simp
  · rw [List.reverse_append, List.dropWhile_append, hb2]
    cases b with
    | nil => simpa using ha2
    | cons c cs => simp

theorem trimFixedFrag_nil : trimFixedFrag ([] : List Char) = true := by
  decide

theorem stripL_of_trimFixed {l : List Char} (h : trimFixedFrag l = true) :
    stripL l = l := by
  simp only [trimFixedFrag, Bool.and_eq_true, beq_iff_eq] at h
  rw [stripL, h.1, h.2, List.reverse_reverse]

mutual
theorem text_contentL_eq_rawFlatten (e : Elem) (h : e.trimFixed = true) :
    Scraper.text_contentL e = rawFlatten e ∧ trimFixedFrag (rawFlatten e) = true := by
  match e with
  | .mk t a tx tl cs =>
    simp only [Elem.trimFixed, Bool.and_eq_true] at h
    obtain ⟨⟨htx, _⟩, hcs⟩ := h
    obtain ⟨hparts, hpartsFix⟩ := text_contentParts_eq_rawFlattenParts cs hcs
    have hfix : trimFixedFrag ((tx.getD "").data ++ rawFlattenParts cs) = true :=
      trimFixedFrag_append htx hpartsFix
    refine ⟨?_, ?_⟩
    · rw [Scraper.text_contentL, hparts, stripL_of_trimFixed hfix, rawFlatten]
    · rw [rawFlatten]; exact hfix

theorem text_contentParts_eq_rawFlattenParts (cs : ElemList)
    (h : cs.trimFixed = true) :
    Scraper.text_contentParts cs = rawFlattenParts cs ∧
    trimFixedFrag (rawFlattenParts cs) = true := by
  match cs with
  | .nil => exact ⟨rfl, trimFixedFrag_nil⟩
  | .cons c rest =>
    simp only [ElemList.trimFixed, Bool.and_eq_true] at h
    obtain ⟨hc, hrest⟩ := h
    obtain ⟨hcEq, hcFix⟩ := text_contentL_eq_rawFlatten c hc
    obtain ⟨hrEq, hrFix⟩ := text_contentParts_eq_rawFlattenParts rest hrest
    have htl : trimFixedFrag (c.tailText.getD "").data = true := by
      match c with
      | .mk t a tx tl cs2 =>
        simp only [Elem.trimFixed, Bool.and_eq_true] at hc
        exact hc.1.2
    refine ⟨?_, ?_⟩
    · rw [Scraper.text_contentParts, hcEq, hrEq, rawFlattenParts]
    · rw [rawFlattenParts]
      exact trimFixedFrag_append (trimFixedFrag_append hcFix htl) hrFix
end

/-! ## Claim C3 — text flattening -/

/-- Claim C3 counterexample: on `exPadded` the source's `_text_content`
returns `"xy"` — each recursive call strips its own result, so the
child's padding vanishes before concatenation — while the claimed
strip-only-at-the-end semantics gives `"x y"`. -/
theorem text_content_strips_per_level :
    Scraper.text_content (some exPadded) = "xy" ∧
    flattenThenStrip exPadded = "x y" ∧
    Scraper.text_content (some exPadded) ≠ flattenThenStrip exPadded := by
  decide

/-- Claim C3 (amended): `_text_content` concatenates own text, each
child's recursively flattened text and each child's trailing text in
document order, but strips whitespace at every recursion level rather
than only from the final result; consequently it agrees with the
strip-only-at-the-end semantics precisely on elements none of whose
text fragments carry leading or trailing whitespace. -/
theorem text_content_eq_flattenThenStrip (e : Elem)
    (h : e.trimFixed = true) :
    Scraper.text_content (some e) = flattenThenStrip e := by
  rw [Scraper.text_content, flattenThenStrip,
      (text_contentL_eq_rawFlatten e h).1,
      stripL_of_trimFixed (text_contentL_eq_rawFlatten e h).2]

/-- Witness for the amended C3 theorem at a concrete whitespace-free
element. -/
theorem text_content_eq_flattenThenStrip_witness :
    exTrimmed.trimFixed = true ∧
    Scraper.text_content (some exTrimmed) = flattenThenStrip exTrimmed :=
  ⟨by decide, text_content_eq_flattenThenStrip exTrimmed (by decide)⟩

/-! ## Claim C10 — paginator constructor validation -/

/-- Claim C10: constructing the paginator `Scraper` raises `ValueError`
exactly when `base_url` is empty (the check is the first statement of
`__init__`, before any other effect); any non-empty `base_url` yields a
configuration carrying it. -/
theorem init_validates_base_url (baseUrl userAgent : String) (timeout : Nat) :
    ((∃ e, Scraper.init baseUrl userAgent timeout = .error e) ↔ baseUrl = "") ∧
    (baseUrl ≠ "" →
      Scraper.init baseUrl userAgent timeout = .ok ⟨baseUrl, userAgent, timeout⟩) := by
  constructor
  · constructor
    · intro ⟨e, he⟩
      by_contra hne
      rw [Scraper.init, if_neg hne] at he
      exact Except.noConfusion he
    · intro h
      exact ⟨"base_url must be provided", by rw [Scraper.init, if_pos h]⟩
  · intro hne
    rw [Scraper.init, if_neg hne]

/-- Witness for C10 at concrete inputs, with the non-emptiness
hypothesis discharged. -/
theorem init_validates_base_url_witness :
    ((∃ e, Scraper.init "https://example.com" "UA" 10 = .error e) ↔
      "https://example.com" = "") ∧
    Scraper.init "https://example.com" "UA" 10 =
      .ok ⟨"https://example.com", "UA", 10⟩ :=
  ⟨(init_validates_base_url "https://example.com" "UA" 10).1,
   (init_validates_base_url "https://example.com" "UA" 10).2 (by decide)⟩

/-! ## Claim C8 — next-link extraction -/

theorem find_next_linkGo_eq_find (uj : String → String → String)
    (baseUrl : String) (links : List Elem) :
    Scraper.find_next_linkGo uj baseUrl links =
      (links.find? (fun link =>
        (Scraper.contains_flag ((link.get "rel").getD "") "next" ||
         Scraper.contains_flag ((link.get "class").getD "") "next") &&
        stripS ((link.get "href").getD "") != "")).map
        (fun link => uj baseUrl (stripS ((link.get "href").getD ""))) := by
  induction links with
  | nil => rfl
  | cons l rest ih =>
    rw [Scraper.find_next_linkGo, List.find?_cons]
    by_cases hflag :
        (Scraper.contains_flag ((l.get "rel").getD "") "next" ||
         Scraper.contains_flag ((l.get "class").getD "") "next") = true
    · rw [if_pos hflag]
      by_cases hhref : stripS ((l.get "href").getD "") ≠ ""
      · rw [if_pos hhref, hflag]
        have hb : (stripS ((l.get "href").getD "") != "") = true := by
          simpa using hhref
        rw [hb]
        rfl
      · rw [if_neg hhref, hflag, ih]
        simp only [ne_eq, not_not] at hhref
        have hb : (stripS ((l.get "href").getD "") != "") = false := by
          simp [hhref]
        rw [hb]
        rfl
    · rw [if_neg hflag]
      rw [Bool.not_eq_true] at hflag
      rw [hflag, ih]
      rfl

/-- Claim C8 counterexample: on `exNextPage` the first `next`-flagged
anchor has a whitespace-only href; the claim says its resolved address
is returned, but the source skips it and returns the second flagged
anchor's resolved href instead. -/
theorem next_link_skips_empty_href :
    specNextLink ujAppend "http://h/" exNextPage = some "http://h/  " ∧
    Scraper.find_next_link ujAppend "http://h/" exNextPage = some "http://h//p2" ∧
    Scraper.find_next_link ujAppend "http://h/" exNextPage ≠
      specNextLink ujAppend "http://h/" exNextPage := by
  decide

/-- Claim C8 (amended): `_find_next_link` returns the resolved stripped
href of the first anchor in document order whose `rel` or `class`
token list contains the case-insensitive token `next` AND whose
stripped href is non-empty; it returns none when no such anchor
exists. -/
theorem find_next_link_spec (uj : String → String → String)
    (baseUrl : String) (root : Elem) :
    Scraper.find_next_link uj baseUrl root =
      ((root.findall "a").find? (fun link =>
        (Scraper.contains_flag ((link.get "rel").getD "") "next" ||
         Scraper.contains_flag ((link.get "class").getD "") "next") &&
        stripS ((link.get "href").getD "") != "")).map
        (fun link => uj baseUrl (stripS ((link.get "href").getD ""))) :=
  find_next_linkGo_eq_find uj baseUrl (root.findall "a")

/-! ## Claim C6 — deduplication invariants -/

theorem nodup_foldl_step {α β : Type} [DecidableEq β]
    (step : List β → α → List β)
    (h : ∀ acc a, step acc a = acc ∨ ∃ r, r ∉ acc ∧ step acc a = acc ++ [r]) :
    ∀ (l : List α) (acc : List β), acc.Nodup → (l.foldl step acc).Nodup := by
  intro l
  induction l with
  | nil => intro acc hacc; exact hacc
  | cons a rest ih =>
    intro acc hacc
    rw [List.foldl_cons]
    apply ih
    rcases h acc a with heq | ⟨r, hnm, heq⟩
    · rw [heq]; exact hacc
    · rw [heq]
      simp [List.nodup_append, hacc, hnm]

theorem extract_resources_nodup (uj : String → String → String)
    (baseUrl pageUrl : String) (pageTitle : Option String) (root : Elem) :
    (BFSkinnerScraper.extract_resources uj baseUrl pageUrl pageTitle root).Nodup := by
  rw [BFSkinnerScraper.extract_resources]
  apply nodup_foldl_step
  · intro acc ac
    dsimp only
    by_cases hhref : (ac.1.get "href").getD "" = ""
    · rw [if_pos hhref]; exact Or.inl rfl
    · rw [if_neg hhref]
      rcases hcl : BFSkinnerScraper.classify_resource baseUrl
          (uj pageUrl ((ac.1.get "href").getD ""))
          (BFSkinnerScraper.get_text_strip ac.1) with _ | rt
      · exact Or.inl rfl
      · dsimp only
        by_cases hmem :
            ({ page_url := BFSkinnerScraper.normalize_url pageUrl,
               resource_url := BFSkinnerScraper.normalize_url
                 (uj pageUrl ((ac.1.get "href").getD "")),
               resource_title :=
                 if BFSkinnerScraper.get_text_strip ac.1 ≠ ""
                 then BFSkinnerScraper.get_text_strip ac.1 else pageTitle.getD "",
               resource_type := rt, page_title := pageTitle,
               description := BFSkinnerScraper.derive_description ac.1 ac.2 } :
              ResourceRecord) ∈ acc
        · rw [if_pos hmem]; exact Or.inl rfl
        · rw [if_neg hmem]
          exact Or.inr ⟨_, hmem, rfl⟩
  · exact List.nodup_nil

theorem mergeArticles_invariant (articles : List ArticleRecord) :
    ∀ (seen : List String) (collected : List ArticleRecord),
    (collected.map (·.url)).Nodup → (∀ a ∈ collected, a.url ∈ seen) →
    (((Scraper.mergeArticles articles seen collected).2.map (·.url)).Nodup ∧
     (∀ a ∈ (Scraper.mergeArticles articles seen collected).2,
        a.url ∈ (Scraper.mergeArticles articles seen collected).1)) := by
  induction articles with
  | nil => intro seen collected h1 h2; exact ⟨h1, h2⟩
  | cons a rest ih =>
    intro seen collected h1 h2
    rw [Scraper.mergeArticles, List.foldl_cons]
    dsimp only
    by_cases hmem : a.url ∈ seen
    · rw [if_pos hmem]
      exact ih seen collected h1 h2
    · rw [if_neg hmem]
      apply ih
      · simp only [List.map_append, List.map_cons, List.map_nil]
        rw [List.nodup_append]
        refine ⟨h1, List.nodup_singleton _, ?_⟩
        intro u hu
        simp only [List.mem_map] at hu
        obtain ⟨b, hb, hbu⟩ := hu
        simp only [List.mem_singleton]
        intro hua
        exact hmem (hua ▸ hbu ▸ h2 b hb)
      · intro b hb
        rcases List.mem_append.mp hb with hb | hb
        · exact List.mem_append.mpr (Or.inl (h2 b hb))
        · simp only [List.mem_singleton] at hb
          subst hb
          exact List.mem_append.mpr (Or.inr (by simp))

theorem scrapeLoop_collected_nodup
    (world : String → Option (List ArticleRecord × Option String)) :
    ∀ (fuel : Nat) (st : ScrapeState),
    (st.collected.map (·.url)).Nodup → (∀ a ∈ st.collected, a.url ∈ st.seenUrls) →
    (((Scraper.scrapeLoop world fuel st).collected.map (·.url)).Nodup) := by
  intro fuel
  induction fuel with
  | zero => intro st h1 _; exact h1
  | succ n ih =>
    intro st h1 h2
    rw [Scraper.scrapeLoop, Scraper.scrapeStep]
    by_cases hguard : st.nextPage = "" ∨ st.nextPage ∈ st.visited
    · rw [if_pos hguard]; exact h1
    · rw [if_neg hguard]
      rcases hw : world st.nextPage with _ | ⟨articles, possibleNext⟩
      · exact h1
      · dsimp only
        have hm := mergeArticles_invariant articles st.seenUrls st.collected h1 h2
        rcases possibleNext with _ | nxt
        · exact hm.1
        · dsimp only
          by_cases hnxt : nxt = "" ∨ nxt ∈ st.visited ++ [st.nextPage]
          · rw [if_pos hnxt]; exact hm.1
          · rw [if_neg hnxt]
            exact ih _ hm.1 hm.2

/-- Claim C6: in every result set, no two `ArticleRecord`s of a
paginator run share a `url` (global per-run deduplication by seen URL),
and no two `ResourceRecord`s extracted from one page are structurally
identical (per-page structural deduplication). -/
theorem dedup_invariants :
    (∀ (world : String → Option (List ArticleRecord × Option String))
       (fuel : Nat) (baseUrl : String) (startUrl : Option String),
       (((Scraper.scrape world fuel baseUrl startUrl).collected.map (·.url)).Nodup)) ∧
    (∀ (uj : String → String → String) (baseUrl pageUrl : String)
       (pageTitle : Option String) (root : Elem),
       (BFSkinnerScraper.extract_resources uj baseUrl pageUrl pageTitle root).Nodup) := by
  constructor
  · intro world fuel baseUrl startUrl
    exact scrapeLoop_collected_nodup world fuel _ (by simp) (by simp)
  · exact extract_resources_nodup

/-! ## Claim C7 — paginator termination -/

theorem nodup_subset_length_le {l s : List String} (hn : l.Nodup)
    (hs : l ⊆ s) : l.length ≤ s.length := by
  calc l.length = l.toFinset.card := (List.toFinset_card_of_nodup hn).symm
    _ ≤ s.toFinset.card := by
        apply Finset.card_le_card
        intro x hx
        rw [List.mem_toFinset] at hx ⊢
        exact hs hx
    _ ≤ s.length := List.toFinset_card_le s

theorem scrapeLoop_halts_aux
    (world : String → Option (List ArticleRecord × Option String))
    (S : List String)
    (hcl : ∀ u ∈ S, ∀ arts nxt, world u = some (arts, some nxt) → nxt ≠ "" → nxt ∈ S) :
    ∀ (fuel : Nat) (st : ScrapeState), st.visited ⊆ S → st.visited.Nodup →
    st.nextPage ∈ S → S.length - st.visited.length < fuel →
    (Scraper.scrapeLoop world fuel st).outcome ≠ .fuelOut ∧
    (Scraper.scrapeLoop world fuel st).trace.length ≤
      st.trace.length + (S.length - st.visited.length) := by
  intro fuel
  induction fuel with
  | zero => intro st _ _ _ hlt; omega
  | succ n ih =>
    intro st hsub hnd hmem hlt
    rw [Scraper.scrapeLoop, Scraper.scrapeStep]
    by_cases hguard : st.nextPage = "" ∨ st.nextPage ∈ st.visited
    · rw [if_pos hguard]
      dsimp only
      exact ⟨fun h => ScrapeOutcome.noConfusion h, by omega⟩
    · rw [if_neg hguard]
      push_neg at hguard
      have hcard : st.visited.length + 1 ≤ S.length := by
        have hnd1 : (st.nextPage :: st.visited).Nodup := by
          simp [List.nodup_cons, hguard.2, hnd]
        have hsub1 : (st.nextPage :: st.visited) ⊆ S := by
          intro x hx
          rcases List.mem_cons.mp hx with h | h
          · exact h ▸ hmem
          · exact hsub h
        simpa using nodup_subset_length_le hnd1 hsub1
      rcases hw : world st.nextPage with _ | ⟨articles, possibleNext⟩
      · refine ⟨fun h => ScrapeOutcome.noConfusion h, ?_⟩
        simp only [ScrapeRun.trace, List.length_append, List.length_cons,
          List.length_nil]
        omega
      · dsimp only
        rcases possibleNext with _ | nxt
        · refine ⟨fun h => ScrapeOutcome.noConfusion h, ?_⟩
          simp only [ScrapeRun.trace, List.length_append, List.length_cons,
            List.length_nil]
          omega
        · dsimp only
          by_cases hnxt : nxt = "" ∨ nxt ∈ st.visited ++ [st.nextPage]
          · rw [if_pos hnxt]
            refine ⟨fun h => ScrapeOutcome.noConfusion h, ?_⟩
            simp only [ScrapeRun.trace, List.length_append, List.length_cons,
              List.length_nil]
            omega
          · rw [if_neg hnxt]
            push_neg at hnxt
            have hnxtS : nxt ∈ S :=
              hcl st.nextPage hmem articles nxt hw hnxt.1
            have hsub1 : st.visited ++ [st.nextPage] ⊆ S := by
              intro x hx
              rcases List.mem_append.mp hx with h | h
              · exact hsub h
              · simp only [List.mem_singleton] at h
                exact h ▸ hmem
            have hnd1 : (st.visited ++ [st.nextPage]).Nodup := by
              simp [List.nodup_append, hnd, hguard.2]
            have hres := ih ⟨nxt, st.visited ++ [st.nextPage],
                (Scraper.mergeArticles articles st.seenUrls st.collected).1,
                (Scraper.mergeArticles articles st.seenUrls st.collected).2,
                st.trace ++ [st.nextPage]⟩ hsub1 hnd1 hnxtS
              (by simp only [ScrapeState.visited, List.length_append,
                    List.length_cons, List.length_nil]; omega)
            refine ⟨hres.1, ?_⟩
            refine le_trans hres.2 ?_
            simp only [ScrapeState.trace, ScrapeState.visited,
              List.length_append, List.length_cons, List.length_nil]
            omega

/-- Claim C7: over any set `S` of `V` distinct pages containing the
start page and closed under the next-pointer, the paginator halts
within fuel `V + 1` — it neither runs out of fuel nor fetches more than
`V + 1` pages — and one loop iteration on a fetchable page transitions
to `DONE` exactly when no next pointer is found (`none` or the falsy
empty string), the next pointer is an already-visited page of this run,
or it equals the current page. -/
theorem paginator_termination :
    (∀ (world : String → Option (List ArticleRecord × Option String))
       (S : List String) (start : String) (fuel : Nat),
       S.Nodup → start ∈ S →
       (∀ u ∈ S, ∀ arts nxt, world u = some (arts, some nxt) → nxt ≠ "" → nxt ∈ S) →
       S.length < fuel →
       (Scraper.scrapeLoop world fuel ⟨start, [], [], [], []⟩).outcome ≠ .fuelOut ∧
       (Scraper.scrapeLoop world fuel ⟨start, [], [], [], []⟩).trace.length ≤
         S.length + 1) ∧
    (∀ (world : String → Option (List ArticleRecord × Option String))
       (st : ScrapeState) (articles : List ArticleRecord)
       (pn : Option String),
       st.nextPage ≠ "" → st.nextPage ∉ st.visited →
       world st.nextPage = some (articles, pn) →
       ((∃ r, Scraper.scrapeStep world st = .halt r) ↔
         (pn = none ∨ pn = some "" ∨
          ∃ n, pn = some n ∧ (n ∈ st.visited ∨ n = st.nextPage)))) := by
  constructor
  · intro world S start fuel hS hstart hcl hfuel
    have h := scrapeLoop_halts_aux world S hcl fuel ⟨start, [], [], [], []⟩
      (by intro x hx; exact absurd hx (List.not_mem_nil x)) List.nodup_nil
      hstart (by simpa using hfuel)
    exact ⟨h.1, by refine le_trans h.2 ?_; simp⟩
  · intro world st articles pn h1 h2 hw
    rw [Scraper.scrapeStep, if_neg (by tauto), hw]
    dsimp only
    rcases pn with _ | nxt
    · simp
    · dsimp only
      by_cases hnxt : nxt = "" ∨ nxt ∈ st.visited ++ [st.nextPage]
      · rw [if_pos hnxt]
        simp only [List.mem_append, List.mem_singleton] at hnxt
        constructor
        · intro _
          rcases hnxt with h | h | h
          · exact Or.inr (Or.inl (by rw [h]))
          · exact Or.inr (Or.inr ⟨nxt, rfl, Or.inl h⟩)
          · exact Or.inr (Or.inr ⟨nxt, rfl, Or.inr h⟩)
        · intro _; exact ⟨_, rfl⟩
      · rw [if_neg hnxt]
        push_neg at hnxt
        simp only [List.mem_append, List.mem_singleton] at hnxt
        constructor
        · intro ⟨r, hr⟩; exact ScrapeStep.noConfusion hr
        · intro h
          rcases h with h | h | ⟨m, hm, hmem⟩
          · exact Option.noConfusion h
          · exact absurd (Option.some.inj h) hnxt.1
          · have hmn : m = nxt := (Option.some.inj hm).symm
            subst hmn
            exact absurd hmem hnxt.2

/-- Witness for C7 on the two-page cycling fixture `worldAB`. -/
theorem paginator_termination_witness :
    ((Scraper.scrapeLoop worldAB 3 ⟨"pg1", [], [], [], []⟩).outcome ≠
        ScrapeOutcome.fuelOut ∧
     (Scraper.scrapeLoop worldAB 3 ⟨"pg1", [], [], [], []⟩).trace.length ≤
        (["pg1", "pg2"] : List String).length + 1) ∧
    ((∃ r, Scraper.scrapeStep worldAB ⟨"pg1", [], [], [], []⟩ = .halt r) ↔
      ((some "pg2" : Option String) = none ∨ (some "pg2" : Option String) = some "" ∨
       ∃ n, (some "pg2" : Option String) = some n ∧
         (n ∈ ([] : List String) ∨ n = "pg1"))) := by
  constructor
  · refine paginator_termination.1 worldAB ["pg1", "pg2"] "pg1" 3
      (by decide) (by decide) ?_ (by decide)
    intro u hu arts nxt h hne
    simp only [List.mem_cons, List.not_mem_nil, or_false] at hu
    rcases hu with rfl | rfl
    · simp only [worldAB, if_pos rfl] at h
      obtain ⟨-, h2⟩ := Prod.mk.injEq .. ▸ Option.some.inj h
      rw [← Option.some.inj h2]
      decide
    · rw [show worldAB "pg2" = some ([], some "pg1") from rfl] at h
      obtain ⟨-, h2⟩ := Prod.mk.injEq .. ▸ Option.some.inj h
      rw [← Option.some.inj h2]
      decide
  · exact paginator_termination.2 worldAB ⟨"pg1", [], [], [], []⟩
      [⟨"T", "u1", none, none⟩] (some "pg2")
      (by decide) (by decide) (by decide)

/-! ## Claims C1 and C2 — crawler fetch accounting -/

theorem crawlInner_visited_mono (uj : String → String → String)
    (fetch : String → FetchRes) (baseUrl : String) (maxPages : Nat)
    (next : CrawlState → CrawlState)
    (hnext : ∀ s, s.visited ⊆ (next s).visited) :
    ∀ (q : List String) (s : CrawlState),
    s.visited ⊆ (BFSkinnerScraper.crawlInner uj fetch baseUrl maxPages next q s).visited := by
  intro q
  induction q with
  | nil => intro s; rw [BFSkinnerScraper.crawlInner]; exact fun x hx => hx
  | cons url rest ih =>
    intro s
    rw [BFSkinnerScraper.crawlInner]
    by_cases hg : s.visited.length < maxPages
    · rw [if_pos hg]
      by_cases hv : url ∈ s.visited
      · rw [if_pos hv]
        exact ih { s with queue := rest }
      · rw [if_neg hv]
        rcases hf : fetch url with _ | _ | doc
        · exact ih { s with queue := rest, trace := s.trace ++ [(url, false)] }
        · intro x hx
          exact hnext _ (List.mem_append.mpr (Or.inl hx))
        · intro x hx
          exact hnext _ (List.mem_append.mpr (Or.inl hx))
    · rw [if_neg hg]; exact fun x hx => hx

theorem crawlGo_visited_mono (uj : String → String → String)
    (fetch : String → FetchRes) (baseUrl : String) (maxPages : Nat) :
    ∀ (b : Nat) (s : CrawlState),
    s.visited ⊆ (BFSkinnerScraper.crawlGo uj fetch baseUrl maxPages b s).visited := by
  intro b
  induction b with
  | zero => intro s; rw [BFSkinnerScraper.crawlGo]; exact fun x hx => hx
  | succ n ih =>
    intro s
    rw [BFSkinnerScraper.crawlGo]
    exact crawlInner_visited_mono uj fetch baseUrl maxPages _ ih s.queue s

theorem successUrls_append_false (t : List (String × Bool)) (u : String) :
    successUrls (t ++ [(u, false)]) = successUrls t := by
  simp [successUrls]

theorem successUrls_append_true (t : List (String × Bool)) (u : String) :
    successUrls (t ++ [(u, true)]) = successUrls t ++ [u] := by
  simp [successUrls]

theorem crawlInner_succ_nodup (uj : String → String → String)
    (fetch : String → FetchRes) (baseUrl : String) (maxPages : Nat)
    (next : CrawlState → CrawlState)
    (hnext : ∀ s, SuccInv s → SuccInv (next s)) :
    ∀ (q : List String) (s : CrawlState), SuccInv s →
    SuccInv (BFSkinnerScraper.crawlInner uj fetch baseUrl maxPages next q s) := by
  intro q
  induction q with
  | nil => intro s hs; rw [BFSkinnerScraper.crawlInner]; exact hs
  | cons url rest ih =>
    intro s hs
    rw [BFSkinnerScraper.crawlInner]
    by_cases hg : s.visited.length < maxPages
    · rw [if_pos hg]
      by_cases hv : url ∈ s.visited
      · rw [if_pos hv]
        exact ih { s with queue := rest } hs
      · rw [if_neg hv]
        have hnewInv : SuccInv
            { s with queue := rest, visited := s.visited ++ [url],
                     trace := s.trace ++ [(url, true)] } := by
          constructor
          · rw [successUrls_append_true]
            simp only [List.nodup_append, List.nodup_singleton]
            refine ⟨hs.1, trivial, ?_⟩
            intro x hx
            simp only [List.mem_singleton]
            intro hxu
            exact hv (hxu ▸ hs.2 x hx)
          · intro u hu
            rw [successUrls_append_true] at hu
            rcases List.mem_append.mp hu with hu | hu
            · exact List.mem_append.mpr (Or.inl (hs.2 u hu))
            · exact List.mem_append.mpr (Or.inr hu)
        rcases hf : fetch url with _ | _ | doc
        · apply ih
          refine ⟨?_, ?_⟩
          · rw [successUrls_append_false]; exact hs.1
          · intro u hu
            rw [successUrls_append_false] at hu
            exact hs.2 u hu
        · exact hnext _ hnewInv
        · refine hnext _ ?_
          constructor
          · rw [successUrls_append_true]
            simp only [List.nodup_append, List.nodup_singleton]
            refine ⟨hs.1, trivial, ?_⟩
            intro x hx
            simp only [List.mem_singleton]
            intro hxu
            exact hv (hxu ▸ hs.2 x hx)
          · intro u hu
            rw [successUrls_append_true] at hu
            rcases List.mem_append.mp hu with hu | hu
            · exact List.mem_append.mpr (Or.inl (hs.2 u hu))
            · exact List.mem_append.mpr (Or.inr hu)
    · rw [if_neg hg]; exact hs

theorem crawlGo_succ_nodup (uj : String → String → String)
    (fetch : String → FetchRes) (baseUrl : String) (maxPages : Nat) :
    ∀ (b : Nat) (s : CrawlState), SuccInv s →
    SuccInv (BFSkinnerScraper.crawlGo uj fetch baseUrl maxPages b s) := by
  intro b
  induction b with
  | zero => intro s hs; rw [BFSkinnerScraper.crawlGo]; exact hs
  | succ n ih =>
    intro s hs
    rw [BFSkinnerScraper.crawlGo]
    exact crawlInner_succ_nodup uj fetch baseUrl maxPages _ ih s.queue s hs

theorem crawlInner_trace_bound (uj : String → String → String)
    (fetch : String → FetchRes) (baseUrl : String) (maxPages : Nat)
    (herr : ∀ u, fetch u ≠ FetchRes.err)
    (next : CrawlState → CrawlState) (b : Nat)
    (hnext : ∀ s, (next s).trace.length ≤ s.trace.length + b) :
    ∀ (q : List String) (s : CrawlState),
    (BFSkinnerScraper.crawlInner uj fetch baseUrl maxPages next q s).trace.length ≤
      s.trace.length + (b + 1) := by
  intro q
  induction q with
  | nil => intro s; rw [BFSkinnerScraper.crawlInner]; omega
  | cons url rest ih =>
    intro s
    rw [BFSkinnerScraper.crawlInner]
    by_cases hg : s.visited.length < maxPages
    · rw [if_pos hg]
      by_cases hv : url ∈ s.visited
      · rw [if_pos hv]
        exact ih { s with queue := rest }
      · rw [if_neg hv]
        rcases hf : fetch url with _ | _ | doc
        · exact absurd hf (herr url)
        · refine le_trans (hnext _) ?_
          simp only [CrawlState.trace, List.length_append, List.length_cons,
            List.length_nil]
          omega
        · refine le_trans (hnext _) ?_
          simp only [CrawlState.trace, List.length_append, List.length_cons,
            List.length_nil]
          omega
    · rw [if_neg hg]; omega

theorem crawlGo_trace_bound (uj : String → String → String)
    (fetch : String → FetchRes) (baseUrl : String) (maxPages : Nat)
    (herr : ∀ u, fetch u ≠ FetchRes.err) :
    ∀ (b : Nat) (s : CrawlState),
    (BFSkinnerScraper.crawlGo uj fetch baseUrl maxPages b s).trace.length ≤
      s.trace.length + b := by
  intro b
  induction b with
  | zero => intro s; rw [BFSkinnerScraper.crawlGo]; omega
  | succ n ih =>
    intro s
    rw [BFSkinnerScraper.crawlGo]
    exact crawlInner_trace_bound uj fetch baseUrl maxPages herr _ n ih s.queue s

theorem crawlInner_succCount_bound (uj : String → String → String)
    (fetch : String → FetchRes) (baseUrl : String) (maxPages : Nat)
    (next : CrawlState → CrawlState) (b : Nat)
    (hnext : ∀ s, (successUrls (next s).trace).length ≤
      (successUrls s.trace).length + b) :
    ∀ (q : List String) (s : CrawlState),
    (successUrls (BFSkinnerScraper.crawlInner uj fetch baseUrl maxPages next q s).trace).length ≤
      (successUrls s.trace).length + (b + 1) := by
  intro q
  induction q with
  | nil => intro s; rw [BFSkinnerScraper.crawlInner]; omega
  | cons url rest ih =>
    intro s
    rw [BFSkinnerScraper.crawlInner]
    by_cases hg : s.visited.length < maxPages
    · rw [if_pos hg]
      by_cases hv : url ∈ s.visited
      · rw [if_pos hv]
        exact ih { s with queue := rest }
      · rw [if_neg hv]
        rcases hf : fetch url with _ | _ | doc
        · dsimp only
          refine le_trans (ih ⟨rest, s.visited, s.resources, s.trace ++ [(url, false)]⟩) ?_
          dsimp only
          rw [successUrls_append_false]
        · refine le_trans (hnext _) ?_
          dsimp only
          rw [successUrls_append_true]
          simp only [List.length_append, List.length_cons, List.length_nil]
          omega
        · refine le_trans (hnext _) ?_
          dsimp only
          rw [successUrls_append_true]
          simp only [List.length_append, List.length_cons, List.length_nil]
          omega
    · rw [if_neg hg]; omega

theorem crawlGo_succCount_bound (uj : String → String → String)
    (fetch : String → FetchRes) (baseUrl : String) (maxPages : Nat) :
    ∀ (b : Nat) (s : CrawlState),
    (successUrls (BFSkinnerScraper.crawlGo uj fetch baseUrl maxPages b s).trace).length ≤
      (successUrls s.trace).length + b := by
  intro b
  induction b with
  | zero => intro s; rw [BFSkinnerScraper.crawlGo]; omega
  | succ n ih =>
    intro s
    rw [BFSkinnerScraper.crawlGo]
    exact crawlInner_succCount_bound uj fetch baseUrl maxPages _ n ih s.queue s

theorem scrapeLoop_trace_nodup
    (world : String → Option (List ArticleRecord × Option String)) :
    ∀ (fuel : Nat) (st : ScrapeState), st.trace = st.visited →
    st.visited.Nodup → (Scraper.scrapeLoop world fuel st).trace.Nodup := by
  intro fuel
  induction fuel with
  | zero => intro st h1 h2; rw [Scraper.scrapeLoop]; exact h1 ▸ h2
  | succ n ih =>
    intro st h1 h2
    rw [Scraper.scrapeLoop, Scraper.scrapeStep]
    by_cases hguard : st.nextPage = "" ∨ st.nextPage ∈ st.visited
    · rw [if_pos hguard]
      exact h1 ▸ h2
    · rw [if_neg hguard]
      push_neg at hguard
      have h2' : (st.visited ++ [st.nextPage]).Nodup := by
        simp [List.nodup_append, h2, hguard.2]
      rcases hw : world st.nextPage with _ | ⟨articles, possibleNext⟩
      · dsimp only
        exact h1 ▸ h2'
      · dsimp only
        rcases possibleNext with _ | nxt
        · exact h1 ▸ h2'
        · dsimp only
          by_cases hnxt : nxt = "" ∨ nxt ∈ st.visited ++ [st.nextPage]
          · rw [if_pos hnxt]
            exact h1 ▸ h2'
          · rw [if_neg hnxt]
            exact ih _ (by dsimp only; rw [h1]) h2'

theorem scrapeLoop_visited_mono
    (world : String → Option (List ArticleRecord × Option String)) :
    ∀ (fuel : Nat) (st : ScrapeState),
    st.visited ⊆ (Scraper.scrapeLoop world fuel st).visited := by
  intro fuel
  induction fuel with
  | zero => intro st; rw [Scraper.scrapeLoop]; exact fun x hx => hx
  | succ n ih =>
    intro st
    rw [Scraper.scrapeLoop, Scraper.scrapeStep]
    by_cases hguard : st.nextPage = "" ∨ st.nextPage ∈ st.visited
    · rw [if_pos hguard]; exact fun x hx => hx
    · rw [if_neg hguard]
      rcases hw : world st.nextPage with _ | ⟨articles, possibleNext⟩
      · dsimp only
        exact fun x hx => List.mem_append.mpr (Or.inl hx)
      · dsimp only
        rcases possibleNext with _ | nxt
        · exact fun x hx => List.mem_append.mpr (Or.inl hx)
        · dsimp only
          by_cases hnxt : nxt = "" ∨ nxt ∈ st.visited ++ [st.nextPage]
          · rw [if_pos hnxt]
            exact fun x hx => List.mem_append.mpr (Or.inl hx)
          · rw [if_neg hnxt]
            intro x hx
            exact ih _ (List.mem_append.mpr (Or.inl hx))

/-! ### Claim C1 -/

/-- Claim C1 counterexample: with `max_pages = 2` and a fetcher that
raises on page `b`, the crawl performs three fetch attempts (`b`'s
raising attempt never marks it visited, so the bound on the visited set
does not bound attempts). -/
theorem crawl_attempts_exceed_max_pages :
    (BFSkinnerScraper.crawl ujId fetchBErr "http://h/" 2).trace.length = 3 ∧
    ¬ ((BFSkinnerScraper.crawl ujId fetchBErr "http://h/" 2).trace.length ≤ 2) := by
  decide

/-- Claim C1 (amended): the crawl always halts; at most `max_pages` of
its fetch attempts succeed (do not raise), and when no attempt raises
the total number of fetch attempts is at most `max_pages`. Attempts
that raise are not counted against the bound and can push the total
beyond it. -/
theorem crawl_fetch_bound (uj : String → String → String)
    (fetch : String → FetchRes) (baseUrl : String) (maxPages : Nat) :
    (successUrls (BFSkinnerScraper.crawl uj fetch baseUrl maxPages).trace).length ≤
      maxPages ∧
    ((∀ u, fetch u ≠ FetchRes.err) →
      (BFSkinnerScraper.crawl uj fetch baseUrl maxPages).trace.length ≤ maxPages) := by
  constructor
  · have h := crawlGo_succCount_bound uj fetch (BFSkinnerScraper.initBaseUrl baseUrl)
      maxPages maxPages ⟨[BFSkinnerScraper.initBaseUrl baseUrl], [], [], []⟩
    simpa [successUrls] using h
  · intro herr
    have h := crawlGo_trace_bound uj fetch (BFSkinnerScraper.initBaseUrl baseUrl)
      maxPages herr maxPages ⟨[BFSkinnerScraper.initBaseUrl baseUrl], [], [], []⟩
    simpa using h

/-- Witness for the amended C1 theorem with a fetcher that never
raises: both conjuncts instantiated, the hypothesis of the second
discharged. -/
theorem crawl_fetch_bound_witness :
    (successUrls (BFSkinnerScraper.crawl ujId fetchSkip "http://h/" 5).trace).length ≤ 5 ∧
    (BFSkinnerScraper.crawl ujId fetchSkip "http://h/" 5).trace.length ≤ 5 :=
  ⟨(crawl_fetch_bound ujId fetchSkip "http://h/" 5).1,
   (crawl_fetch_bound ujId fetchSkip "http://h/" 5).2
     (fun _ h => FetchRes.noConfusion h)⟩

/-! ### Claim C2 -/

/-- Claim C2 counterexample: with `max_pages = 3` and a fetcher raising
on page `b`, address `b` is fetched twice in one crawl invocation — it
is rediscovered from page `c` after its first failed fetch, because a
raising fetch does not mark the address visited. -/
theorem crawl_refetches_raised_url :
    ((BFSkinnerScraper.crawl ujId fetchBErr "http://h/" 3).trace.map (·.1)) =
      ["http://h/", "http://h/b", "http://h/c", "http://h/b"] ∧
    ¬ ((BFSkinnerScraper.crawl ujId fetchBErr "http://h/" 3).trace.map (·.1)).Nodup := by
  decide

/-- Claim C2 (amended): the visited set only ever grows in both
variants; the paginator fetches each address at most once per
invocation; the crawler fetches each address at most once among
attempts that do not raise, but an address whose fetch raised may be
fetched again if rediscovered. -/
theorem fetch_once_invariants :
    (∀ (uj : String → String → String) (fetch : String → FetchRes)
       (baseUrl : String) (maxPages : Nat),
       (successUrls (BFSkinnerScraper.crawl uj fetch baseUrl maxPages).trace).Nodup) ∧
    (∀ (uj : String → String → String) (fetch : String → FetchRes)
       (baseUrl : String) (maxPages b : Nat) (s : CrawlState),
       s.visited ⊆ (BFSkinnerScraper.crawlGo uj fetch baseUrl maxPages b s).visited) ∧
    (∀ (world : String → Option (List ArticleRecord × Option String))
       (fuel : Nat) (baseUrl : String) (startUrl : Option String),
       (Scraper.scrape world fuel baseUrl startUrl).trace.Nodup) ∧
    (∀ (world : String → Option (List ArticleRecord × Option String))
       (fuel : Nat) (st : ScrapeState),
       st.visited ⊆ (Scraper.scrapeLoop world fuel st).visited) := by
  refine ⟨?_, ?_, ?_, ?_⟩
  · intro uj fetch baseUrl maxPages
    have h := crawlGo_succ_nodup uj fetch (BFSkinnerScraper.initBaseUrl baseUrl)
      maxPages maxPages ⟨[BFSkinnerScraper.initBaseUrl baseUrl], [], [], []⟩
      ⟨by simp [successUrls], by simp [successUrls]⟩
    exact h.1
  · intro uj fetch baseUrl maxPages b s
    exact crawlGo_visited_mono uj fetch baseUrl maxPages b s
  · intro world fuel baseUrl startUrl
    exact scrapeLoop_trace_nodup world fuel _ rfl List.nodup_nil
  · intro world fuel st
    exact scrapeLoop_visited_mono world fuel st

/-! ## Claim C9 — non-http schemes yield no resource -/

theorem classify_resource_non_http (baseUrl url text : String)
    (h : startsWithL "http".data (urlparse url.data).scheme = false) :
    BFSkinnerScraper.classify_resource baseUrl url text = none := by
  rw [BFSkinnerScraper.classify_resource]
  simp [h]

theorem extract_resources_all_non_http (uj : String → String → String)
    (baseUrl pageUrl : String) (pageTitle : Option String) (root : Elem)
    (h : ∀ ac ∈ BFSkinnerScraper.anchorsWithHref root,
      startsWithL "http".data
        (urlparse (uj pageUrl ((ac.1.get "href").getD "")).data).scheme = false) :
    BFSkinnerScraper.extract_resources uj baseUrl pageUrl pageTitle root = [] := by
  rw [BFSkinnerScraper.extract_resources]
  have hgen : ∀ (l : List (Elem × List Elem)),
      (∀ ac ∈ l, startsWithL "http".data
        (urlparse (uj pageUrl ((ac.1.get "href").getD "")).data).scheme = false) →
      ∀ (acc : List ResourceRecord),
      l.foldl (fun resources ac =>
        let href := (ac.1.get "href").getD ""
        let text := BFSkinnerScraper.get_text_strip ac.1
        if href = "" then resources
        else
          match BFSkinnerScraper.classify_resource baseUrl (uj pageUrl href) text with
          | none => resources
          | some resourceType =>
            let record : ResourceRecord :=
              { page_url := BFSkinnerScraper.normalize_url pageUrl
                resource_url := BFSkinnerScraper.normalize_url (uj pageUrl href)
                resource_title := if text ≠ "" then text else pageTitle.getD ""
                resource_type := resourceType
                page_title := pageTitle
                description := BFSkinnerScraper.derive_description ac.1 ac.2 }
            if record ∈ resources then resources else resources ++ [record]) acc = acc := by
    intro l
    induction l with
    | nil => intro _ acc; rfl
    | cons ac rest ih =>
      intro hl acc
      rw [List.foldl_cons]
      have hcl := classify_resource_non_http baseUrl
        (uj pageUrl ((ac.1.get "href").getD ""))
        (BFSkinnerScraper.get_text_strip ac.1) (hl ac (List.mem_cons_self ac rest))
      dsimp only
      by_cases hhref : (ac.1.get "href").getD "" = ""
      · rw [if_pos hhref]
        exact ih (fun x hx => hl x (List.mem_cons_of_mem ac hx)) acc
      · rw [if_neg hhref, hcl]
        exact ih (fun x hx => hl x (List.mem_cons_of_mem ac hx)) acc
  exact hgen (BFSkinnerScraper.anchorsWithHref root) h []

/-- Claim C9: an anchor whose resolved address has a scheme not starting
with `http` (`mailto:`, `javascript:`, `tel:` …) is classified as no
resource, even when its path ends with a recognized extension or its
text contains a hint keyword; consequently a page all of whose anchors
resolve to such addresses yields no `ResourceRecord` at all. -/
theorem non_http_scheme_never_resource :
    (∀ (baseUrl url text : String),
       startsWithL "http".data (urlparse url.data).scheme = false →
       BFSkinnerScraper.classify_resource baseUrl url text = none) ∧
    (∀ (uj : String → String → String) (baseUrl pageUrl : String)
       (pageTitle : Option String) (root : Elem),
       (∀ ac ∈ BFSkinnerScraper.anchorsWithHref root,
          startsWithL "http".data
            (urlparse (uj pageUrl ((ac.1.get "href").getD "")).data).scheme = false) →
       BFSkinnerScraper.extract_resources uj baseUrl pageUrl pageTitle root = []) :=
  ⟨classify_resource_non_http, extract_resources_all_non_http⟩

/-- Witness for C9: a `mailto:` anchor whose path ends in `.pdf` and
whose text contains hint keywords produces nothing. -/
theorem non_http_scheme_never_resource_witness :
    BFSkinnerScraper.classify_resource "http://h/" "mailto:guide.pdf"
      "Download the free guide" = none ∧
    BFSkinnerScraper.extract_resources ujId "http://h/" "http://h/p" none
      exMailtoPage = [] :=
  ⟨non_http_scheme_never_resource.1 "http://h/" "mailto:guide.pdf"
     "Download the free guide" (by decide),
   non_http_scheme_never_resource.2 ujId "http://h/" "http://h/p" none
     exMailtoPage (by decide)⟩

/-! ## Claim C4 — resource classification rules -/

theorem startsWithL_iff (a : List Char) :
    ∀ (l : List Char), startsWithL a l = true ↔ ∃ t, l = a ++ t := by
  induction a with
  | nil =>
    intro l
    simp only [startsWithL, List.nil_append]
    exact ⟨fun _ => ⟨l, rfl⟩, fun _ => trivial⟩
  | cons p ps ih =>
    intro l
    cases l with
    | nil =>
      simp only [startsWithL]
      constructor
      · intro h; exact Bool.noConfusion h
      · intro ⟨t, ht⟩; exact List.noConfusion ht
    | cons c cs =>
      simp only [startsWithL, Bool.and_eq_true, beq_iff_eq, List.cons_append]
      constructor
      · intro ⟨h1, h2⟩
        obtain ⟨t, ht⟩ := (ih cs).mp h2
        exact ⟨t, by rw [h1, ht]⟩
      · intro ⟨t, ht⟩
        obtain ⟨h1, h2⟩ := List.cons.inj ht
        exact ⟨h1.symm, (ih cs).mpr ⟨t, h2⟩⟩

theorem endsWithL_iff (ext l : List Char) :
    endsWithL ext l = true ↔ ∃ pre, l = pre ++ ext := by
  rw [endsWithL, startsWithL_iff]
  constructor
  · intro ⟨t, ht⟩
    refine ⟨t.reverse, ?_⟩
    have := congrArg List.reverse ht
    simpa using this
  · intro ⟨pre, hpre⟩
    exact ⟨pre.reverse, by simp [hpre]⟩

/-- No two distinct entries of `RESOURCE_EXTENSIONS` can both be
suffixes of one path: none is a suffix of another. -/
theorem resource_extensions_no_mutual_suffix :
    ∀ e1 ∈ BFSkinnerScraper.RESOURCE_EXTENSIONS,
    ∀ e2 ∈ BFSkinnerScraper.RESOURCE_EXTENSIONS,
    endsWithL e1 e2 = true → e1 = e2 := by
  decide

theorem extensions_unique_suffix {p e1 e2 : List Char}
    (h1m : e1 ∈ BFSkinnerScraper.RESOURCE_EXTENSIONS)
    (h2m : e2 ∈ BFSkinnerScraper.RESOURCE_EXTENSIONS)
    (h1 : endsWithL e1 p = true) (h2 : endsWithL e2 p = true) : e1 = e2 := by
  obtain ⟨a1, ha1⟩ := (endsWithL_iff e1 p).mp h1
  obtain ⟨a2, ha2⟩ := (endsWithL_iff e2 p).mp h2
  have hs1 : e1 <:+ p := ⟨a1, ha1.symm⟩
  have hs2 : e2 <:+ p := ⟨a2, ha2.symm⟩
  rcases List.suffix_or_suffix_of_suffix hs1 hs2 with ⟨d, hd⟩ | ⟨d, hd⟩
  · exact resource_extensions_no_mutual_suffix e1 h1m e2 h2m
      ((endsWithL_iff e1 e2).mpr ⟨d, hd.symm⟩)
  · exact (resource_extensions_no_mutual_suffix e2 h2m e1 h1m
      ((endsWithL_iff e2 e1).mpr ⟨d, hd.symm⟩)).symm

theorem find?_extension_eq {p ext : List Char}
    (hmem : ext ∈ BFSkinnerScraper.RESOURCE_EXTENSIONS)
    (hsfx : endsWithL ext p = true) :
    BFSkinnerScraper.RESOURCE_EXTENSIONS.find? (fun e => endsWithL e p) = some ext := by
  have huniq := fun e1 h1m e2 h2m h1 h2 =>
    @extensions_unique_suffix p e1 e2 h1m h2m h1 h2
  have hgen : ∀ (L : List (List Char)),
      (∀ e ∈ L, e ∈ BFSkinnerScraper.RESOURCE_EXTENSIONS) → ext ∈ L →
      L.find? (fun e => endsWithL e p) = some ext := by
    intro L
    induction L with
    | nil => intro _ h; exact absurd h (List.not_mem_nil ext)
    | cons e rest ih =>
      intro hsub hm
      rw [List.find?_cons]
      rcases he : endsWithL e p with _ | _
      · dsimp only
        rcases List.mem_cons.mp hm with rfl | hm'
        · rw [hsfx] at he; exact Bool.noConfusion he
        · exact ih (fun x hx => hsub x (List.mem_cons_of_mem e hx)) hm'
      · dsimp only
        rcases List.mem_cons.mp hm with rfl | hm'
        · rfl
        · rw [huniq e (hsub e (List.mem_cons_self e rest)) ext
              (hsub ext (List.mem_cons_of_mem e hm')) he hsfx]
  exact hgen BFSkinnerScraper.RESOURCE_EXTENSIONS (fun e he => he) hmem

/-- Python substring containment really is contiguous occurrence. -/
theorem isSubstr_iff (pat : List Char) :
    ∀ (l : List Char), isSubstr pat l = true ↔ ∃ pre post, l = pre ++ pat ++ post := by
  intro l
  induction l with
  | nil =>
    rw [isSubstr, startsWithL_iff]
    constructor
    · intro ⟨t, ht⟩
      exact ⟨[], t, by simpa using ht⟩
    · intro ⟨pre, post, h⟩
      have h0 := List.append_eq_nil.mp h.symm
      have h1 := List.append_eq_nil.mp h0.1
      exact ⟨[], by simp [h1.2]⟩
  | cons c cs ih =>
    rw [isSubstr, Bool.or_eq_true, startsWithL_iff, ih]
    constructor
    · intro h
      rcases h with ⟨t, ht⟩ | ⟨pre, post, h⟩
      · exact ⟨[], t, by simpa using ht⟩
      · exact ⟨c :: pre, post, by simp [h]⟩
    · intro ⟨pre, post, h⟩
      cases pre with
      | nil =>
        exact Or.inl ⟨post, by simpa using h⟩
      | cons d ds =>
        obtain ⟨h1, h2⟩ := List.cons.inj h
        exact Or.inr ⟨ds, post, h2⟩

/-- Claim C4 counterexample: `mailto:x.pdf` resolves to a path whose
lowercased form ends with the fixed extension `.pdf`, yet classification
yields no resource (the claim's extension rule predicts `some "pdf"`):
the scheme guard precedes the extension rule. -/
theorem classify_ignores_extension_on_non_http :
    ".pdf".data ∈ BFSkinnerScraper.RESOURCE_EXTENSIONS ∧
    endsWithL ".pdf".data (lowerL (urlparse "mailto:x.pdf".data).path) = true ∧
    BFSkinnerScraper.classify_resource "http://h/" "mailto:x.pdf" "" = none ∧
    BFSkinnerScraper.classify_resource "http://h/" "mailto:x.pdf" "" ≠ some "pdf" := by
  decide

/-- Claim C4 (amended): provided the resolved address's scheme starts
with `http`, classification yields the extension without its leading
dot when the lowercased path ends with one of the fixed extensions;
otherwise yields `page` exactly when the anchor text contains a hint
keyword (case-insensitive substring) and the address is internal;
otherwise yields nothing — in particular an external address with
keyword text yields no resource. Anchors whose resolved scheme does not
start with `http` are always skipped (claim C9). -/
theorem classify_resource_rules :
    (∀ (baseUrl url text : String) (ext : List Char),
       startsWithL "http".data (urlparse url.data).scheme = true →
       ext ∈ BFSkinnerScraper.RESOURCE_EXTENSIONS →
       endsWithL ext (lowerL (urlparse url.data).path) = true →
       BFSkinnerScraper.classify_resource baseUrl url text =
         some ⟨BFSkinnerScraper.lstripDot ext⟩) ∧
    (∀ (baseUrl url text : String),
       startsWithL "http".data (urlparse url.data).scheme = true →
       (∀ ext ∈ BFSkinnerScraper.RESOURCE_EXTENSIONS,
          endsWithL ext (lowerL (urlparse url.data).path) = false) →
       (∃ kw ∈ BFSkinnerScraper.KEYWORD_HINTS,
          isSubstr kw (lowerL text.data) = true) →
       BFSkinnerScraper.is_internal_url baseUrl url = true →
       BFSkinnerScraper.classify_resource baseUrl url text = some "page") ∧
    (∀ (baseUrl url text : String),
       startsWithL "http".data (urlparse url.data).scheme = true →
       (∀ ext ∈ BFSkinnerScraper.RESOURCE_EXTENSIONS,
          endsWithL ext (lowerL (urlparse url.data).path) = false) →
       ¬ ((∃ kw ∈ BFSkinnerScraper.KEYWORD_HINTS,
            isSubstr kw (lowerL text.data) = true) ∧
          BFSkinnerScraper.is_internal_url baseUrl url = true) →
       BFSkinnerScraper.classify_resource baseUrl url text = none) := by
  refine ⟨?_, ?_, ?_⟩
  · intro baseUrl url text ext hscheme hmem hsfx
    rw [BFSkinnerScraper.classify_resource]
    rw [hscheme]
    dsimp only
    rw [find?_extension_eq hmem hsfx]
    rfl
  · intro baseUrl url text hscheme hnoext hkw hint
    rw [BFSkinnerScraper.classify_resource]
    rw [hscheme]
    dsimp only
    rw [List.find?_eq_none.mpr (fun e he => by rw [hnoext e he]; exact Bool.false_ne_true)]
    dsimp only
    obtain ⟨kw, hkwm, hkws⟩ := hkw
    rw [if_pos (List.any_eq_true.mpr ⟨kw, hkwm, hkws⟩), if_pos hint]
    rfl
  · intro baseUrl url text hscheme hnoext hneg
    rw [BFSkinnerScraper.classify_resource]
    rw [hscheme]
    dsimp only
    rw [List.find?_eq_none.mpr (fun e he => by rw [hnoext e he]; exact Bool.false_ne_true)]
    dsimp only
    by_cases hany : BFSkinnerScraper.KEYWORD_HINTS.any
        (fun keyword => isSubstr keyword (lowerL text.data)) = true
    · rw [if_pos hany]
      have hint : BFSkinnerScraper.is_internal_url baseUrl url ≠ true := by
        intro h
        obtain ⟨kw, hkwm, hkws⟩ := List.any_eq_true.mp hany
        exact hneg ⟨⟨kw, hkwm, hkws⟩, h⟩
      rw [if_neg hint]
      rfl
    · rw [if_neg hany]
      rfl

/-- Witness for the amended C4 theorem: one instantiation per rule —
an internal `.pdf` link, an internal keyword link with no recognized
extension, and an external keyword link (excluded). -/
theorem classify_resource_rules_witness :
    BFSkinnerScraper.classify_resource "https://h/" "https://h/f.pdf" "x" =
      some ⟨BFSkinnerScraper.lstripDot ".pdf".data⟩ ∧
    BFSkinnerScraper.classify_resource "https://h/" "https://h/about"
      "Download the free guide" = some "page" ∧
    BFSkinnerScraper.classify_resource "https://h/" "https://other.org/about"
      "Download the free guide" = none :=
  ⟨classify_resource_rules.1 "https://h/" "https://h/f.pdf" "x" ".pdf".data
     (by decide) (by decide) (by decide),
   classify_resource_rules.2.1 "https://h/" "https://h/about"
     "Download the free guide" (by decide)
     (by decide) ⟨"download".data, by decide, by decide⟩ (by decide),
   classify_resource_rules.2.2 "https://h/" "https://other.org/about"
     "Download the free guide" (by decide) (by decide)
     (fun h => by exact absurd h.2 (by decide))⟩

/-! ## Claim C5 — idempotent normalization

The proof reparses the string built by `_normalize_url` and shows each
component of `urlparse` comes back unchanged. -/

theorem toNat_ofNat_valid (n : Nat) (h : n < 0xd800) :
    (Char.ofNat n).toNat = n := by
  rw [Char.ofNat, dif_pos (Or.inl h)]
  rfl

theorem toLower_toNat_of_upper {c : Char} (h : 65 ≤ c.toNat ∧ c.toNat ≤ 90) :
    (Char.toLower c).toNat = c.toNat + 32 := by
  rw [Char.toLower, if_pos h]
  exact toNat_ofNat_valid _ (by omega)

theorem toLower_toNat_of_not_upper {c : Char}
    (h : ¬ (65 ≤ c.toNat ∧ c.toNat ≤ 90)) :
    (Char.toLower c).toNat = c.toNat := by
  rw [Char.toLower, if_neg h]

theorem char_toNat_inj {c d : Char} (h : c.toNat = d.toNat) : c = d :=
  Char.ext (UInt32.toNat.inj h)

theorem toLower_toLower (c : Char) :
    Char.toLower (Char.toLower c) = Char.toLower c := by
  by_cases h : 65 ≤ c.toNat ∧ c.toNat ≤ 90
  · have h1 := toLower_toNat_of_upper h
    exact char_toNat_inj (toLower_toNat_of_not_upper (by omega))
  · have h1 : Char.toLower c = c := char_toNat_inj (toLower_toNat_of_not_upper h)
    rw [h1, h1]

theorem lowerL_idem (l : List Char) : lowerL (lowerL l) = lowerL l := by
  simp only [lowerL, List.map_map]
  exact List.map_congr_left (fun c _ => toLower_toLower c)

theorem schemeChar_toLower {c : Char} (h : schemeChar c = true) :
    schemeChar (Char.toLower c) = true := by
  by_cases hu : 65 ≤ c.toNat ∧ c.toNat ≤ 90
  · have h1 := toLower_toNat_of_upper hu
    have h2 : 97 ≤ (Char.toLower c).toNat ∧ (Char.toLower c).toNat ≤ 122 := by
      omega
    simp only [schemeChar, Bool.or_eq_true, Bool.and_eq_true, decide_eq_true_eq]
    exact Or.inl (Or.inl (Or.inl (Or.inl (Or.inr h2))))
  · rw [char_toNat_inj (toLower_toNat_of_not_upper hu)]
    exact h

theorem asciiAlpha_toLower {c : Char} (h : asciiAlpha c = true) :
    asciiAlpha (Char.toLower c) = true := by
  by_cases hu : 65 ≤ c.toNat ∧ c.toNat ≤ 90
  · have h1 := toLower_toNat_of_upper hu
    have h2 : 97 ≤ (Char.toLower c).toNat ∧ (Char.toLower c).toNat ≤ 122 := by
      omega
    simp only [asciiAlpha, Bool.or_eq_true, Bool.and_eq_true, decide_eq_true_eq]
    exact Or.inr h2
  · rw [char_toNat_inj (toLower_toNat_of_not_upper hu)]
    exact h

theorem schemeChar_ne_colon {c : Char} (h : schemeChar c = true) : c ≠ ':' := by
  intro hc
  subst hc
  exact Bool.noConfusion h

theorem splitOnce_of_not_mem {sep : Char} :
    ∀ {l : List Char}, sep ∉ l → splitOnce sep l = none := by
  intro l
  induction l with
  | nil => intro _; rfl
  | cons c cs ih =>
    intro h
    rw [splitOnce, if_neg (fun hc => h (List.mem_cons.mpr (Or.inl hc.symm))),
      ih (fun hm => h (List.mem_cons_of_mem c hm))]

theorem splitOnce_append {sep : Char} :
    ∀ {a : List Char} (b : List Char), sep ∉ a →
    splitOnce sep (a ++ sep :: b) = some (a, b) := by
  intro a
  induction a with
  | nil => intro b _; simp [splitOnce]
  | cons c cs ih =>
    intro b h
    rw [List.cons_append, splitOnce,
      if_neg (fun hc => h (List.mem_cons.mpr (Or.inl hc.symm))),
      ih b (fun hm => h (List.mem_cons_of_mem c hm))]

theorem splitOnce_eq_some {sep : Char} :
    ∀ {l a b : List Char}, splitOnce sep l = some (a, b) →
    l = a ++ sep :: b ∧ sep ∉ a := by
  intro l
  induction l with
  | nil => intro a b h; exact Option.noConfusion h
  | cons c cs ih =>
    intro a b h
    rw [splitOnce] at h
    by_cases hc : c = sep
    · rw [if_pos hc] at h
      obtain ⟨h1, h2⟩ := Prod.mk.injEq .. ▸ Option.some.inj h
      subst hc
      rw [← h1, ← h2]
      exact ⟨rfl, List.not_mem_nil _⟩
    · rw [if_neg hc] at h
      rcases hs : splitOnce sep cs with _ | ⟨a1, b1⟩
      · rw [hs] at h; exact Option.noConfusion h
      · rw [hs] at h
        obtain ⟨h1, h2⟩ := Prod.mk.injEq .. ▸ Option.some.inj h
        obtain ⟨hcs, hna⟩ := ih hs
        subst h1 h2
        refine ⟨by rw [List.cons_append, hcs], ?_⟩
        intro hm
        rcases List.mem_cons.mp hm with hm | hm
        · exact hc hm.symm
        · exact hna hm

theorem splitOnce_eq_none {sep : Char} :
    ∀ {l : List Char}, splitOnce sep l = none → sep ∉ l := by
  intro l
  induction l with
  | nil => intro _ hm; exact List.not_mem_nil sep hm
  | cons c cs ih =>
    intro h hm
    rw [splitOnce] at h
    by_cases hc : c = sep
    · rw [if_pos hc] at h; exact Option.noConfusion h
    · rw [if_neg hc] at h
      rcases hs : splitOnce sep cs with _ | pair
      · rcases List.mem_cons.mp hm with hm | hm
        · exact hc hm.symm
        · exact ih hs hm
      · rw [hs] at h
        exact Option.noConfusion h

theorem takeWhile_append_of_head_false {p : Char → Bool} :
    ∀ {a : List Char} {x : Char} (r : List Char),
    (∀ c ∈ a, p c = true) → p x = false →
    (a ++ x :: r).takeWhile p = a ∧ (a ++ x :: r).dropWhile p = x :: r := by
  intro a
  induction a with
  | nil =>
    intro x r _ hx
    simp [List.takeWhile_cons, List.dropWhile_cons, hx]
  | cons c cs ih =>
    intro x r ha hx
    have hc : p c = true := ha c (List.mem_cons_self c cs)
    obtain ⟨h1, h2⟩ := ih r (fun d hd => ha d (List.mem_cons_of_mem c hd)) hx
    constructor
    · rw [List.cons_append, List.takeWhile_cons, hc]
      simpa using h1
    · rw [List.cons_append, List.dropWhile_cons, hc]
      simpa using h2

theorem contains_eq_false_of_not_mem {a : Char} {l : List Char} (h : a ∉ l) :
    l.contains a = false := by
  rw [show l.contains a = List.elem a l from rfl, List.elem_eq_mem]
  simpa using h

theorem not_mem_of_contains_eq_false {a : Char} {l : List Char}
    (h : l.contains a = false) : a ∉ l := by
  rw [show l.contains a = List.elem a l from rfl, List.elem_eq_mem] at h
  simpa using h

theorem getLast?_mem_own : ∀ {l : List Char} {a : Char},
    l.getLast? = some a → a ∈ l := by
  intro l
  induction l with
  | nil => intro a h; exact Option.noConfusion h
  | cons c cs ih =>
    intro a h
    cases cs with
    | nil =>
      rw [List.getLast?_singleton] at h
      exact List.mem_cons.mpr (Or.inl (Option.some.inj h).symm)
    | cons d ds =>
      rw [List.getLast?_cons_cons] at h
      exact List.mem_cons_of_mem c (ih h)

theorem splitLastSlash_of_not_mem : ∀ {p : List Char}, '/' ∉ p →
    splitLastSlash p = ([], p) := by
  intro p
  induction p with
  | nil => intro _; rfl
  | cons c cs _ =>
    intro h
    rw [splitLastSlash,
      if_neg (by rw [contains_eq_false_of_not_mem
        (fun hm => h (List.mem_cons_of_mem c hm))]; exact Bool.false_ne_true),
      if_neg (fun hc => h (List.mem_cons.mpr (Or.inl hc.symm)))]

theorem splitLastSlash_append : ∀ {f : List Char} {a : List Char}, '/' ∉ a →
    (f = [] ∨ f.getLast? = some '/') → splitLastSlash (f ++ a) = (f, a) := by
  intro f
  induction f with
  | nil => intro a ha _; exact splitLastSlash_of_not_mem ha
  | cons c fs ih =>
    intro a ha hf
    rcases hf with hf | hf
    · exact List.noConfusion hf
    · cases fs with
      | nil =>
        rw [List.getLast?_singleton] at hf
        have hc : c = '/' := Option.some.inj hf
        subst hc
        rw [List.cons_append, List.nil_append, splitLastSlash,
          if_neg (by rw [contains_eq_false_of_not_mem ha]; exact Bool.false_ne_true),
          if_pos rfl]
      | cons d ds =>
        rw [List.getLast?_cons_cons] at hf
        have hmem : '/' ∈ (d :: ds) ++ a :=
          List.mem_append.mpr (Or.inl (getLast?_mem_own hf))
        rw [List.cons_append, splitLastSlash,
          if_pos (List.elem_eq_true_of_mem hmem), ih ha (Or.inr hf)]

theorem splitLastSlash_decomp : ∀ (p : List Char),
    p = (splitLastSlash p).1 ++ (splitLastSlash p).2 ∧
    '/' ∉ (splitLastSlash p).2 ∧
    ((splitLastSlash p).1 = [] ∨ (splitLastSlash p).1.getLast? = some '/') := by
  intro p
  induction p with
  | nil => exact ⟨rfl, List.not_mem_nil _, Or.inl rfl⟩
  | cons c cs ih =>
    by_cases hc : cs.contains '/' = true
    · rw [splitLastSlash, if_pos hc]
      obtain ⟨h1, h2, h3⟩ := ih
      refine ⟨by rw [List.cons_append, ← h1], h2, Or.inr ?_⟩
      rcases h3 with h3 | h3
      · exfalso
        rw [h3, List.nil_append] at h1
        rw [← h1] at h2
        exact h2 (List.mem_of_elem_eq_true hc)
      · rcases hfs : (splitLastSlash cs).1 with _ | ⟨d, ds⟩
        · rw [hfs] at h3; exact Option.noConfusion h3
        · rw [hfs] at h3
          rw [List.getLast?_cons_cons, h3]
    · rw [splitLastSlash, if_neg hc]
      by_cases hcc : c = '/'
      · rw [if_pos hcc]
        subst hcc
        exact ⟨rfl, not_mem_of_contains_eq_false (by simpa using hc),
          Or.inr (by rw [List.getLast?_singleton])⟩
      · rw [if_neg hcc]
        refine ⟨rfl, ?_, Or.inl rfl⟩
        intro hm
        rcases List.mem_cons.mp hm with hm | hm
        · exact hcc hm.symm
        · exact not_mem_of_contains_eq_false (by simpa using hc) hm

theorem splitOnceD_of_not_mem {sep : Char} {l : List Char} (h : sep ∉ l) :
    splitOnceD sep l = (l, []) := by
  rw [splitOnceD, splitOnce_of_not_mem h]

theorem splitOnceD_append {sep : Char} {a : List Char} (b : List Char)
    (h : sep ∉ a) : splitOnceD sep (a ++ sep :: b) = (a, b) := by
  rw [splitOnceD, splitOnce_append b h]

theorem splitOnceD_fst_not_mem (sep : Char) (l : List Char) :
    sep ∉ (splitOnceD sep l).1 := by
  rw [splitOnceD]
  rcases hs : splitOnce sep l with _ | ⟨a, b⟩
  · exact splitOnce_eq_none hs
  · exact (splitOnce_eq_some hs).2

theorem splitOnceD_mem_fst {sep c : Char} {l : List Char}
    (h : c ∈ (splitOnceD sep l).1) : c ∈ l := by
  rw [splitOnceD] at h
  rcases hs : splitOnce sep l with _ | ⟨a, b⟩
  · rw [hs] at h; exact h
  · rw [hs] at h
    rw [(splitOnce_eq_some hs).1]
    exact List.mem_append.mpr (Or.inl h)

theorem splitOnceD_mem_snd {sep c : Char} {l : List Char}
    (h : c ∈ (splitOnceD sep l).2) : c ∈ l := by
  rw [splitOnceD] at h
  rcases hs : splitOnce sep l with _ | ⟨a, b⟩
  · rw [hs] at h; exact absurd h (List.not_mem_nil c)
  · rw [hs] at h
    rw [(splitOnce_eq_some hs).1]
    exact List.mem_append.mpr (Or.inr (List.mem_cons_of_mem sep h))

theorem splitOnceD_fst_head (sep : Char) :
    ∀ {l : List Char}, (splitOnceD sep l).1 = [] ∨
      ∃ x t u, l = x :: t ∧ (splitOnceD sep l).1 = x :: u := by
  intro l
  rw [splitOnceD]
  rcases hs : splitOnce sep l with _ | ⟨a, b⟩
  · cases l with
    | nil => exact Or.inl rfl
    | cons x t => exact Or.inr ⟨x, t, t, rfl, rfl⟩
  · obtain ⟨hl, _⟩ := splitOnce_eq_some hs
    cases a with
    | nil => exact Or.inl rfl
    | cons x u =>
      exact Or.inr ⟨x, u ++ sep :: b, u, by rw [hl, List.cons_append], rfl⟩

theorem dropWhile_head_cases (p : Char → Bool) :
    ∀ (l : List Char), l.dropWhile p = [] ∨
      ∃ x xs, l.dropWhile p = x :: xs ∧ p x = false := by
  intro l
  induction l with
  | nil => exact Or.inl rfl
  | cons c cs ih =>
    rw [List.dropWhile_cons]
    rcases hp : p c with _ | _
    · exact Or.inr ⟨c, cs, by simp [hp], hp⟩
    · simpa using ih

theorem extractNetloc_fst_all (r : List Char) :
    ∀ c ∈ (extractNetloc r).1, netlocDelim c = false := by
  rw [extractNetloc]
  by_cases h : startsWithL "//".data r = true
  · rw [if_pos h]
    intro c hc
    have := List.mem_takeWhile_imp hc
    simpa using this
  · rw [if_neg h]
    intro c hc
    exact absurd hc (List.not_mem_nil c)

theorem extractNetloc_snd_head (r : List Char)
    (h : (extractNetloc r).1 ≠ []) :
    (extractNetloc r).2 = [] ∨
      ∃ x xs, (extractNetloc r).2 = x :: xs ∧ netlocDelim x = true := by
  rw [extractNetloc] at h ⊢
  by_cases hs : startsWithL "//".data r = true
  · rw [if_pos hs] at h ⊢
    rcases dropWhile_head_cases (fun c => !netlocDelim c) (r.drop 2) with hd | ⟨x, xs, hd, hx⟩
    · exact Or.inl hd
    · refine Or.inr ⟨x, xs, hd, ?_⟩
      simpa using hx
  · rw [if_neg hs] at h
    exact absurd rfl h

theorem extractNetloc_append {n : List Char} {x : Char} {r : List Char}
    (hn : ∀ c ∈ n, netlocDelim c = false) (hx : netlocDelim x = true) :
    extractNetloc ('/' :: '/' :: (n ++ x :: r)) = (n, x :: r) := by
  rw [extractNetloc, if_pos (by rw [show startsWithL "//".data
      ('/' :: '/' :: (n ++ x :: r)) = startsWithL [] (n ++ x :: r) from rfl,
      startsWithL])]
  obtain ⟨h1, h2⟩ := takeWhile_append_of_head_false (p := fun c => !netlocDelim c)
    (a := n) (x := x) r (fun c hc => by simp [hn c hc]) (by simp [hx])
  rw [show ('/' :: '/' :: (n ++ x :: r)).drop 2 = n ++ x :: r from rfl, h1, h2]

theorem schemeOK_https : SchemeOK "https".data := by
  refine ⟨by decide, by decide, by decide, by decide⟩

theorem schemeOK_not_mem_colon {s : List Char} (h : SchemeOK s) : ':' ∉ s := by
  intro hm
  have := List.all_eq_true.mp h.2.2.1 ':' hm
  exact Bool.noConfusion this

theorem extractScheme_cases (url : List Char) :
    extractScheme url = ([], url) ∨ SchemeOK (extractScheme url).1 := by
  rw [extractScheme]
  rcases hs : splitOnce ':' url with _ | ⟨before, after⟩
  · exact Or.inl rfl
  · dsimp only
    by_cases hcond : before ≠ [] ∧ asciiAlpha (before.headD ' ') = true ∧
        before.all schemeChar = true
    · rw [if_pos hcond]
      refine Or.inr ⟨?_, ?_, ?_, lowerL_idem before⟩
      · cases before with
        | nil => exact absurd rfl hcond.1
        | cons b bs => exact fun h => List.noConfusion h
      · cases before with
        | nil => exact absurd rfl hcond.1
        | cons b bs =>
          have := hcond.2.1
          rw [List.headD_cons] at this
          rw [show (lowerL (b :: bs)).headD ' ' = Char.toLower b from rfl]
          exact asciiAlpha_toLower this
      · rw [List.all_eq_true]
        intro c hc
        rw [lowerL] at hc
        obtain ⟨d, hd, hdc⟩ := List.mem_map.mp hc
        rw [← hdc]
        exact schemeChar_toLower (List.all_eq_true.mp hcond.2.2 d hd)
    · rw [if_neg hcond]
      exact Or.inl rfl

theorem extractScheme_snd (url : List Char) :
    (extractScheme url).2 = url ∨
    ∃ before, url = before ++ ':' :: (extractScheme url).2 := by
  rw [extractScheme]
  rcases hs : splitOnce ':' url with _ | ⟨before, after⟩
  · exact Or.inl rfl
  · dsimp only
    by_cases hcond : before ≠ [] ∧ asciiAlpha (before.headD ' ') = true ∧
        before.all schemeChar = true
    · rw [if_pos hcond]
      exact Or.inr ⟨before, (splitOnce_eq_some hs).1⟩
    · rw [if_neg hcond]
      exact Or.inl rfl

theorem extractScheme_append {s : List Char} (hOK : SchemeOK s)
    (r : List Char) : extractScheme (s ++ ':' :: r) = (s, r) := by
  rw [extractScheme, splitOnce_append r (schemeOK_not_mem_colon hOK)]
  dsimp only
  rw [if_pos ⟨hOK.1, hOK.2.1, hOK.2.2.1⟩, hOK.2.2.2]

theorem urlsplit_scheme (url : List Char) :
    (urlsplit url).scheme = (extractScheme url).1 := rfl

theorem urlsplit_netloc (url : List Char) :
    (urlsplit url).netloc = (extractNetloc (extractScheme url).2).1 := rfl

theorem urlsplit_path (url : List Char) :
    (urlsplit url).path =
      (splitOnceD '?' (splitOnceD '#' (extractNetloc (extractScheme url).2).2).1).1 := rfl

theorem urlsplit_query (url : List Char) :
    (urlsplit url).query =
      (splitOnceD '?' (splitOnceD '#' (extractNetloc (extractScheme url).2).2).1).2 := rfl

theorem urlsplit_params (url : List Char) : (urlsplit url).params = [] := rfl

theorem urlsplit_props (url : List Char) :
    ((urlsplit url).scheme = [] ∨ SchemeOK (urlsplit url).scheme) ∧
    (∀ c ∈ (urlsplit url).netloc, netlocDelim c = false) ∧
    '#' ∉ (urlsplit url).path ∧ '?' ∉ (urlsplit url).path ∧
    '#' ∉ (urlsplit url).query ∧
    ((urlsplit url).netloc ≠ [] →
      (urlsplit url).path = [] ∨ ∃ t, (urlsplit url).path = '/' :: t) := by
  refine ⟨?_, ?_, ?_, ?_, ?_, ?_⟩
  · rw [urlsplit_scheme]
    rcases extractScheme_cases url with h | h
    · rw [h]; exact Or.inl rfl
    · exact Or.inr h
  · rw [urlsplit_netloc]
    exact extractNetloc_fst_all _
  · rw [urlsplit_path]
    intro h
    exact splitOnceD_fst_not_mem '#' _ (splitOnceD_mem_fst h)
  · rw [urlsplit_path]
    exact splitOnceD_fst_not_mem '?' _
  · rw [urlsplit_query]
    intro h
    have h1 := splitOnceD_mem_snd h
    exact splitOnceD_fst_not_mem '#' _ h1
  · rw [urlsplit_netloc, urlsplit_path]
    intro hne
    rcases extractNetloc_snd_head (extractScheme url).2 hne with h2 | ⟨x, xs, h2, hx⟩
    · rw [h2]
      rw [show splitOnceD '#' ([] : List Char) = ([], []) from rfl]
      rw [show splitOnceD '?' ([] : List Char) = ([], []) from rfl]
      exact Or.inl rfl
    · rw [h2]
      have hx3 : x = '/' ∨ x = '?' ∨ x = '#' := by
        simp only [netlocDelim, Bool.or_eq_true, beq_iff_eq] at hx
        tauto
      rcases hx3 with rfl | rfl | rfl
      · rcases splitOnceD_fst_head '#' (l := '/' :: xs) with hf | ⟨y, t, u, hy, hf⟩
        · rw [hf]
          rw [show splitOnceD '?' ([] : List Char) = ([], []) from rfl]
          exact Or.inl rfl
        · obtain ⟨hy1, -⟩ := List.cons.inj hy
          subst hy1
          rw [hf]
          rcases splitOnceD_fst_head '?' (l := '/' :: u) with hq | ⟨z, t2, u2, hz, hq⟩
          · rw [hq]; exact Or.inl rfl
          · obtain ⟨hz1, -⟩ := List.cons.inj hz
            subst hz1
            rw [hq]
            exact Or.inr ⟨u2, rfl⟩
      · rcases splitOnceD_fst_head '#' (l := '?' :: xs) with hf | ⟨y, t, u, hy, hf⟩
        · rw [hf]
          rw [show splitOnceD '?' ([] : List Char) = ([], []) from rfl]
          exact Or.inl rfl
        · obtain ⟨hy1, -⟩ := List.cons.inj hy
          subst hy1
          rw [hf]
          rw [show splitOnceD '?' ('?' :: u) = ([], u) from rfl]
          exact Or.inl rfl
      · rw [show splitOnceD '#' ('#' :: xs) = ([], xs) from rfl]
        rw [show splitOnceD '?' ([] : List Char) = ([], []) from rfl]
        exact Or.inl rfl

theorem splitparams_of_lastSeg_clean {p : List Char}
    (h : ';' ∉ (splitLastSlash p).2) : splitparams p = (p, []) := by
  rw [splitparams]
  by_cases hc : p.contains '/' = true
  · rw [if_pos hc, splitOnce_of_not_mem h]
  · rw [if_neg hc]
    obtain h2 := splitLastSlash_of_not_mem (not_mem_of_contains_eq_false
      (by simpa using hc))
    rw [h2] at h
    rw [splitOnce_of_not_mem h]

theorem splitparams_fst_mem {p : List Char} :
    ∀ c ∈ (splitparams p).1, c ∈ p := by
  intro c hc
  rw [splitparams] at hc
  obtain ⟨hdec, hseg, -⟩ := splitLastSlash_decomp p
  by_cases hcont : p.contains '/' = true
  · rw [if_pos hcont] at hc
    rcases hs : splitOnce ';' (splitLastSlash p).2 with _ | ⟨a, b⟩
    · rw [hs] at hc; exact hc
    · rw [hs] at hc
      dsimp only at hc
      rcases List.mem_append.mp hc with hm | hm
      · rw [hdec]; exact List.mem_append.mpr (Or.inl hm)
      · rw [hdec]
        refine List.mem_append.mpr (Or.inr ?_)
        rw [(splitOnce_eq_some hs).1]
        exact List.mem_append.mpr (Or.inl hm)
  · rw [if_neg hcont] at hc
    rcases hs : splitOnce ';' p with _ | ⟨a, b⟩
    · rw [hs] at hc; exact hc
    · rw [hs] at hc
      rw [(splitOnce_eq_some hs).1]
      exact List.mem_append.mpr (Or.inl hc)

theorem splitparams_nil : splitparams [] = ([], []) := by decide

theorem splitparams_head {p t : List Char} (hp : p = '/' :: t) :
    ∃ u, (splitparams p).1 = '/' :: u := by
  rw [splitparams]
  obtain ⟨hdec, hseg, hend⟩ := splitLastSlash_decomp p
  by_cases hcont : p.contains '/' = true
  · rw [if_pos hcont]
    rcases hs : splitOnce ';' (splitLastSlash p).2 with _ | ⟨a, b⟩
    · exact ⟨t, hp⟩
    · dsimp only
      rcases hfront : (splitLastSlash p).1 with _ | ⟨f0, front'⟩
      · exfalso
        rw [hfront, List.nil_append] at hdec
        rw [← hdec] at hseg
        exact hseg (List.mem_of_elem_eq_true hcont)
      · rw [hfront] at hdec
        rw [hp, List.cons_append] at hdec
        obtain ⟨h0, -⟩ := List.cons.inj hdec.symm
        subst h0
        exact ⟨front' ++ a, by rw [List.cons_append]⟩
  · exfalso
    apply not_mem_of_contains_eq_false (by simpa using hcont)
    rw [hp]
    exact List.mem_cons_self '/' t

theorem splitparams_lastSeg (p : List Char) :
    ';' ∉ (splitLastSlash (splitparams p).1).2 := by
  rw [splitparams]
  obtain ⟨hdec, hseg, hend⟩ := splitLastSlash_decomp p
  by_cases hcont : p.contains '/' = true
  · rw [if_pos hcont]
    rcases hs : splitOnce ';' (splitLastSlash p).2 with _ | ⟨a, b⟩
    · dsimp only
      exact splitOnce_eq_none hs
    · dsimp only
      obtain ⟨hsdec, hsa⟩ := splitOnce_eq_some hs
      have hslash_a : '/' ∉ a := by
        intro hm
        exact hseg (by rw [hsdec]; exact List.mem_append.mpr (Or.inl hm))
      rw [splitLastSlash_append hslash_a hend]
      exact hsa
  · rw [if_neg hcont]
    have hnp : '/' ∉ p := not_mem_of_contains_eq_false (by simpa using hcont)
    rcases hs : splitOnce ';' p with _ | ⟨a, b⟩
    · dsimp only
      rw [splitLastSlash_of_not_mem hnp]
      exact splitOnce_eq_none hs
    · dsimp only
      obtain ⟨hsdec, hsa⟩ := splitOnce_eq_some hs
      have hslash_a : '/' ∉ a := by
        intro hm
        exact hnp (by rw [hsdec]; exact List.mem_append.mpr (Or.inl hm))
      rw [splitLastSlash_of_not_mem hslash_a]
      exact hsa

theorem mem_of_mem_lastSeg {p : List Char} {c : Char}
    (h : c ∈ (splitLastSlash p).2) : c ∈ p := by
  obtain ⟨hdec, -, -⟩ := splitLastSlash_decomp p
  rw [hdec]
  exact List.mem_append.mpr (Or.inr h)

theorem urlparse_props (url : List Char) :
    ((urlparse url).scheme = [] ∨ SchemeOK (urlparse url).scheme) ∧
    (∀ c ∈ (urlparse url).netloc, netlocDelim c = false) ∧
    '#' ∉ (urlparse url).path ∧ '?' ∉ (urlparse url).path ∧
    '#' ∉ (urlparse url).query ∧
    ((urlparse url).netloc ≠ [] →
      (urlparse url).path = [] ∨ ∃ t, (urlparse url).path = '/' :: t) ∧
    ((urlparse url).scheme ∈ uses_params →
      ';' ∉ (splitLastSlash (urlparse url).path).2) := by
  obtain ⟨hsch, hnet, hpf, hpq, hqf, hhead⟩ := urlsplit_props url
  rw [urlparse]
  by_cases hcond : (urlsplit url).scheme ∈ uses_params ∧
      (urlsplit url).path.contains ';' = true
  · rw [if_pos hcond]
    dsimp only
    refine ⟨hsch, hnet, ?_, ?_, hqf, ?_, ?_⟩
    · intro hm; exact hpf (splitparams_fst_mem _ hm)
    · intro hm; exact hpq (splitparams_fst_mem _ hm)
    · intro hne
      rcases hhead hne with hp | ⟨t, hp⟩
      · rw [hp, splitparams_nil]
        exact Or.inl rfl
      · obtain ⟨u, hu⟩ := splitparams_head hp
        exact Or.inr ⟨u, hu⟩
    · intro _
      exact splitparams_lastSeg _
  · rw [if_neg hcond]
    refine ⟨hsch, hnet, hpf, hpq, hqf, hhead, ?_⟩
    intro hschUses hm
    have hncont : ¬ (urlsplit url).path.contains ';' = true :=
      fun hcont => hcond ⟨hschUses, hcont⟩
    exact not_mem_of_contains_eq_false (by simpa using hncont)
      (mem_of_mem_lastSeg hm)

theorem urlparse_reconstructed (scheme' netloc path' query : List Char)
    (hOK : SchemeOK scheme')
    (hnet : ∀ c ∈ netloc, netlocDelim c = false)
    (hpath : ∃ t, path' = '/' :: t)
    (hpf : '#' ∉ path') (hpq : '?' ∉ path') (hqf : '#' ∉ query)
    (hseg : scheme' ∈ uses_params → ';' ∉ (splitLastSlash path').2) :
    urlparse (scheme' ++ (':' :: '/' :: '/' :: []) ++ netloc ++ path' ++
        (if query = [] then [] else '?' :: query)) =
      ⟨scheme', netloc, path', [], query, []⟩ := by
  obtain ⟨t, hpathEq⟩ := hpath
  have hw : scheme' ++ (':' :: '/' :: '/' :: []) ++ netloc ++ path' ++
      (if query = [] then [] else '?' :: query) =
      scheme' ++ ':' :: ('/' :: '/' ::
        (netloc ++ '/' :: (t ++ (if query = [] then [] else '?' :: query)))) := by
    rw [hpathEq]
    simp
  have hq' : '#' ∉ path' ++ (if query = [] then [] else '?' :: query) := by
    intro hm
    rcases List.mem_append.mp hm with hm | hm
    · exact hpf hm
    · by_cases hqe : query = []
      · rw [if_pos hqe] at hm
        exact List.not_mem_nil _ hm
      · rw [if_neg hqe] at hm
        rcases List.mem_cons.mp hm with hm | hm
        · exact absurd hm (by decide)
        · exact hqf hm
  have hsplit : urlsplit (scheme' ++ (':' :: '/' :: '/' :: []) ++ netloc ++
      path' ++ (if query = [] then [] else '?' :: query)) =
      ⟨scheme', netloc, path', [], query, []⟩ := by
    rw [hw]
    simp only [urlsplit]
    rw [extractScheme_append hOK]
    rw [show ('/' :: '/' :: (netloc ++ '/' ::
        (t ++ (if query = [] then [] else '?' :: query)))) =
      '/' :: '/' :: (netloc ++ '/' ::
        (t ++ (if query = [] then [] else '?' :: query))) from rfl]
    rw [extractNetloc_append hnet (by decide)]
    dsimp only
    rw [show ('/' :: (t ++ (if query = [] then [] else '?' :: query))) =
      path' ++ (if query = [] then [] else '?' :: query) from by
        rw [hpathEq, List.cons_append]]
    rw [splitOnceD_of_not_mem hq']
    dsimp only
    by_cases hqe : query = []
    · rw [if_pos hqe, List.append_nil, splitOnceD_of_not_mem hpq, hqe]
    · rw [if_neg hqe, splitOnceD_append query hpq]
  rw [urlparse, hsplit]
  dsimp only
  by_cases hcond : scheme' ∈ uses_params ∧ path'.contains ';' = true
  · rw [if_pos hcond]
    rw [splitparams_of_lastSeg_clean (hseg hcond.1)]
  · rw [if_neg hcond]

theorem normalize_reconstructed (S N P Q : List Char)
    (hOK : SchemeOK S) (hNe : N ≠ [])
    (hnetAll : ∀ c ∈ N, netlocDelim c = false)
    (hpath : ∃ t, P = '/' :: t)
    (hpf : '#' ∉ P) (hpq : '?' ∉ P) (hqf : '#' ∉ Q)
    (hseg : S ∈ uses_params → ';' ∉ (splitLastSlash P).2) :
    BFSkinnerScraper.normalize_urlL
      (S ++ (':' :: '/' :: '/' :: []) ++ N ++ P ++
        (if Q = [] then [] else '?' :: Q)) =
      S ++ (':' :: '/' :: '/' :: []) ++ N ++ P ++
        (if Q = [] then [] else '?' :: Q) := by
  have hre := urlparse_reconstructed S N P Q hOK hnetAll hpath hpf hpq hqf hseg
  simp only [BFSkinnerScraper.normalize_urlL]
  rw [hre]
  dsimp only
  obtain ⟨t, hpt⟩ := hpath
  rw [if_neg hNe, if_neg hOK.1,
    if_neg (show ¬ P = [] from by rw [hpt]; exact fun h => List.noConfusion h)]

theorem normalize_urlL_idem (u : List Char) :
    BFSkinnerScraper.normalize_urlL (BFSkinnerScraper.normalize_urlL u) =
      BFSkinnerScraper.normalize_urlL u := by
  by_cases hnet : (urlparse u).netloc = []
  · have h0 : BFSkinnerScraper.normalize_urlL u = u := by
      simp only [BFSkinnerScraper.normalize_urlL]
      rw [if_pos hnet]
    rw [h0]
    exact h0
  · obtain ⟨hsch, hnetAll, hpf, hpq, hqf, hhead, hseg⟩ := urlparse_props u
    have hN : BFSkinnerScraper.normalize_urlL u =
        (if (urlparse u).scheme = [] then "https".data else (urlparse u).scheme) ++
        (':' :: '/' :: '/' :: []) ++ (urlparse u).netloc ++
        (if (urlparse u).path = [] then ['/'] else (urlparse u).path) ++
        (if (urlparse u).query = [] then [] else '?' :: (urlparse u).query) := by
      simp only [BFSkinnerScraper.normalize_urlL]
      rw [if_neg hnet]
    have hOK : SchemeOK
        (if (urlparse u).scheme = [] then "https".data else (urlparse u).scheme) := by
      by_cases hse : (urlparse u).scheme = []
      · rw [if_pos hse]; exact schemeOK_https
      · rw [if_neg hse]
        rcases hsch with h | h
        · exact absurd h hse
        · exact h
    have hpath : ∃ t,
        (if (urlparse u).path = [] then ['/'] else (urlparse u).path) = '/' :: t := by
      by_cases hpe : (urlparse u).path = []
      · rw [if_pos hpe]; exact ⟨[], rfl⟩
      · rw [if_neg hpe]
        rcases hhead hnet with h | h
        · exact absurd h hpe
        · exact h
    have hpf' : '#' ∉ (if (urlparse u).path = [] then ['/'] else (urlparse u).path) := by
      by_cases hpe : (urlparse u).path = []
      · rw [if_pos hpe]; decide
      · rw [if_neg hpe]; exact hpf
    have hpq' : '?' ∉ (if (urlparse u).path = [] then ['/'] else (urlparse u).path) := by
      by_cases hpe : (urlparse u).path = []
      · rw [if_pos hpe]; decide
      · rw [if_neg hpe]; exact hpq
    have hseg' :
        (if (urlparse u).scheme = [] then "https".data else (urlparse u).scheme) ∈
            uses_params →
        ';' ∉ (splitLastSlash
          (if (urlparse u).path = [] then ['/'] else (urlparse u).path)).2 := by
      intro hu
      by_cases hpe : (urlparse u).path = []
      · rw [if_pos hpe]; decide
      · rw [if_neg hpe]
        apply hseg
        by_cases hse : (urlparse u).scheme = []
        · rw [hse]; decide
        · rw [if_neg hse] at hu; exact hu
    have hfin := normalize_reconstructed
      (if (urlparse u).scheme = [] then "https".data else (urlparse u).scheme)
      (urlparse u).netloc
      (if (urlparse u).path = [] then ['/'] else (urlparse u).path)
      (urlparse u).query hOK hnet hnetAll hpath hpf' hpq' hqf hseg'
    rw [hN]
    exact hfin

/-- Claim C5: `_normalize_url` is idempotent — normalizing an already
normalized address returns it unchanged, for every address. -/
theorem normalize_url_idempotent (u : String) :
    BFSkinnerScraper.normalize_url (BFSkinnerScraper.normalize_url u) =
      BFSkinnerScraper.normalize_url u :=
  congrArg String.mk (normalize_urlL_idem u.data)

/-! ## Equivalence of the two crawl-loop presentations -/

theorem crawlGo_of_queue_nil (uj : String → String → String)
    (fetch : String → FetchRes) (baseUrl : String) (maxPages : Nat) :
    ∀ (n : Nat) (s : CrawlState), s.queue = [] →
    BFSkinnerScraper.crawlGo uj fetch baseUrl maxPages n s = s := by
  intro n s hq
  cases n with
  | zero => rw [BFSkinnerScraper.crawlGo]
  | succ b =>
    rw [BFSkinnerScraper.crawlGo, hq, BFSkinnerScraper.crawlInner]

/-- The direct while-loop form of the crawl and its budgeted compilation
agree: the budget argument of `crawlGo` tracks exactly
`max_pages - len(visited)`, the loop guard of the source. -/
theorem crawlLoopW_eq_crawlGo (uj : String → String → String)
    (fetch : String → FetchRes) (baseUrl : String) (maxPages : Nat)
    (s : CrawlState) :
    BFSkinnerScraper.crawlLoopW uj fetch baseUrl maxPages s =
      BFSkinnerScraper.crawlGo uj fetch baseUrl maxPages
        (maxPages - s.visited.length) s := by
  induction s using BFSkinnerScraper.crawlLoopW.induct uj fetch baseUrl maxPages with
  | case1 s hq =>
    rw [BFSkinnerScraper.crawlLoopW, hq,
      crawlGo_of_queue_nil uj fetch baseUrl maxPages _ s hq]
  | case2 s url rest hq hlt hmem ih =>
    have hb : maxPages - s.visited.length =
        maxPages - s.visited.length - 1 + 1 := by omega
    rw [BFSkinnerScraper.crawlLoopW, hq]
    dsimp only
    rw [dif_pos hlt, if_pos hmem, ih]
    dsimp only
    rw [hb]
    simp only [BFSkinnerScraper.crawlGo]
    rw [hq]
    simp only [BFSkinnerScraper.crawlInner]
    rw [if_pos hlt, if_pos hmem]
  | case3 s url rest hq hlt hmem hf ih =>
    have hb : maxPages - s.visited.length =
        maxPages - s.visited.length - 1 + 1 := by omega
    rw [BFSkinnerScraper.crawlLoopW, hq]
    dsimp only
    rw [dif_pos hlt, if_neg hmem, hf, ih]
    dsimp only
    rw [hb]
    simp only [BFSkinnerScraper.crawlGo]
    rw [hq]
    simp only [BFSkinnerScraper.crawlInner]
    rw [if_pos hlt, if_neg hmem, hf]
  | case4 s url rest hq hlt hmem hf ih =>
    have hb : maxPages - s.visited.length =
        maxPages - s.visited.length - 1 + 1 := by omega
    rw [BFSkinnerScraper.crawlLoopW, hq]
    dsimp only
    rw [dif_pos hlt, if_neg hmem, hf, ih]
    dsimp only
    rw [show maxPages - (s.visited ++ [url]).length =
      maxPages - s.visited.length - 1 from by
        simp only [List.length_append, List.length_cons, List.length_nil]
        omega]
    rw [hb]
    simp only [BFSkinnerScraper.crawlGo]
    rw [hq]
    simp only [BFSkinnerScraper.crawlInner]
    rw [if_pos hlt, if_neg hmem, hf]
    dsimp only
    rw [Nat.add_sub_cancel]
  | case5 s url rest hq hlt hmem doc hf visited1 pageTitle newResources links queue1 ih =>
    obtain ⟨b, hB⟩ : ∃ b, maxPages - s.visited.length = b + 1 :=
      ⟨maxPages - s.visited.length - 1, by omega⟩
    rw [BFSkinnerScraper.crawlLoopW, hq]
    dsimp only
    rw [dif_pos hlt, if_neg hmem, hf]
    dsimp only
    rw [hB, BFSkinnerScraper.crawlGo, hq, BFSkinnerScraper.crawlInner,
      if_pos hlt, if_neg hmem, hf]
    dsimp only
    dsimp only at ih
    rw [show visited1 = s.visited ++ [url] from rfl] at ih
    rw [show maxPages - (s.visited ++ [url]).length = b from by
      simp only [List.length_append, List.length_cons, List.length_nil]
      omega] at ih
    exact ih
  | case6 s url rest hq hlt =>
    rw [BFSkinnerScraper.crawlLoopW, hq]
    dsimp only
    rw [dif_neg hlt]
    rw [show maxPages - s.visited.length = 0 from by omega,
      BFSkinnerScraper.crawlGo]
